import Mathlib

/-!
Verification development for the gufunc-style `vectorize` layer
(notebook `gufuncs.ipynb`): a shallow embedding of the signature parser,
the dimension resolver, the broadcast expander, the axis rebinder and the
batch mapper, together with theorems checking the natural-language
specification against this embedding.

Modelling conventions:
* Python strings are lists of characters (`List Char`); the model is
  restricted to ASCII signatures, so the regex class `\w` is embedded as
  `[A-Za-z0-9_]`.
* Array shapes are `List Nat`; an n-dimensional array is a shape together
  with a total function from index lists to values.  Two arrays are equal
  as observations when their shapes agree and their data agree on every
  index that is valid for the shape.
* Python dicts keyed by dimension names are association lists in insertion
  order.
* Errors raised by the source are constructors of `VecError`; a fallible
  step returns `Except VecError`.
* The external collaborators (`jax.vmap`, `jnp.broadcast_to`,
  `jnp.moveaxis`, numpy's `_broadcast_shape`) are not part of the
  repository; they are modelled from the spec's collaborator interfaces
  (each such definition is marked `Modelled from the spec:`).
-/

namespace Gufunc

/-- A dimension name, i.e. a Python string, as a list of characters. -/
abbrev DimName := List Char

/-- An array shape: an ordered list of non-negative integers. -/
abbrev Shape := List Nat

/-- One side of a parsed signature: one tuple of dimension names per
parenthesized group, in left-to-right order. -/
abbrev CoreDims := List (List DimName)

/-- The error taxonomy of the spec (section 7).  Payloads follow the data
interpolated into the corresponding Python error messages. -/
inductive VecError where
  | invalidSignature : VecError
  | arityMismatch : Nat → Nat → VecError
  | insufficientRank : Nat → List DimName → VecError
  | inconsistentDim : DimName → Nat → Nat → VecError
  | broadcastError : List Shape → VecError
  | axisNotSupported : VecError
deriving DecidableEq, Repr

/-! ## Signature grammar and parser

The source validates with `re.match(_SIGNATURE, signature)` where

  _DIMENSION_NAME      = \w+
  _CORE_DIMENSION_LIST = (?:\w+(?:,\w+)*)?
  _ARGUMENT            = \((?:\w+(?:,\w+)*)?\)
  _ARGUMENT_LIST       = _ARGUMENT(?:,_ARGUMENT)*
  _SIGNATURE           = ^_ARGUMENT_LIST->_ARGUMENT_LIST$

and then extracts the result with `signature.split('->')` and
`re.findall`.  On this grammar the regex is deterministic, so the parser
below is a direct functional transcription; Python's `$` also matches just
before a single newline at the very end of the string, which is embedded
by `stripFinalNewline`. -/

/-- The ASCII fragment of the character class `\w`: `[A-Za-z0-9_]`.
This is exactly what Python 3's `\w` matches on ASCII characters; beyond
ASCII, Python's `\w` additionally matches Unicode word characters (e.g.
it accepts the name `é`), which this embedding does not model.  Theorems
that compare the parser with the grammar therefore quantify only over
ASCII strings, the domain on which this embedding of `\w` is exact. -/
def isWordChar (c : Char) : Bool :=
  (('a' ≤ c && c ≤ 'z') || ('A' ≤ c && c ≤ 'Z') || ('0' ≤ c && c ≤ '9') || c = '_')

/-- A string made solely of ASCII characters. -/
def asciiOnly (s : String) : Bool :=
  s.data.all (fun c => c.toNat < 128)

/-- Split a character list on a separator character.  `splitOnC sep cs`
always returns at least one part; the parts do not contain `sep` and
re-joining them with `sep` gives back `cs`. -/
def splitOnC (sep : Char) : List Char → List (List Char)
  | [] => [[]]
  | c :: cs =>
    if c = sep then [] :: splitOnC sep cs
    else
      match splitOnC sep cs with
      | [] => [[c]]
      | p :: ps => (c :: p) :: ps

/-- Join character lists with a separator character (inverse of
`splitOnC`). -/
def joinSep (sep : Char) : List (List Char) → List Char
  | [] => []
  | [p] => p
  | p :: ps => p ++ sep :: joinSep sep ps

/-- `mapM` over `Option`, written structurally so that it unfolds well in
proofs. -/
def mapMo (f : α → Option β) : List α → Option (List β)
  | [] => some []
  | a :: l => do
    let b ← f a
    let bs ← mapMo f l
    pure (b :: bs)

/-- A match of the regex `_DIMENSION_NAME = \w+`: a nonempty run of word
characters. -/
def nameOK (n : DimName) : Bool :=
  !n.isEmpty && n.all isWordChar

/-- The regex `_CORE_DIMENSION_LIST = (?:\w+(?:,\w+)*)?` applied to the
text between one pair of parentheses, returning the `re.findall` result:
the list of dimension names of that group. -/
def parseGroupContent (cs : List Char) : Option (List DimName) :=
  if cs = [] then some []
  else
    let names := splitOnC ',' cs
    if names.all nameOK then some names
    else none

/-- One part of an argument list after splitting on the closing
parenthesis.  The first part of an accepted argument list is an opening
parenthesis followed by the group content; every later part additionally
starts with the separating comma. -/
def groupOfPart (isFirstPart : Bool) (p : List Char) : Option (List DimName) :=
  if isFirstPart then
    match p with
    | c :: content => if c = '(' then parseGroupContent content else none
    | [] => none
  else
    match p with
    | c :: c2 :: content =>
      if c = ',' ∧ c2 = '(' then parseGroupContent content else none
    | _ => none

/-- The regex `_ARGUMENT_LIST = \(...\)(?:,\(...\))*`, anchored on the
whole of `cs`, returning the groups in left-to-right order.  Splitting on
`')'` must give the group bodies followed by one trailing empty part. -/
def parseArgList (cs : List Char) : Option CoreDims :=
  let parts := splitOnC ')' cs
  if parts.getLast? = some [] then
    match parts.dropLast with
    | [] => none
    | p :: ps => do
      let g ← groupOfPart true p
      let gs ← mapMo (groupOfPart false) ps
      pure (g :: gs)
  else none

/-- The anchored regex `_ARGUMENT_LIST->_ARGUMENT_LIST` on the whole of
`cs`: the `->` separator is located at the first `'-'` of the string,
since no `'-'` can occur inside an argument list. -/
def parseSignatureChars (cs : List Char) : Option (CoreDims × CoreDims) :=
  match cs.dropWhile (fun c => c != '-') with
  | c :: c2 :: post =>
    if c = '-' ∧ c2 = '>' then do
      let ins ← parseArgList (cs.takeWhile (fun c => c != '-'))
      let outs ← parseArgList post
      pure (ins, outs)
    else none
  | _ => none

/-- Python's `$` (without `re.MULTILINE`) matches at the end of the string
or just before one newline at the very end; so validation ignores a single
trailing `'\n'`. -/
def stripFinalNewline (cs : List Char) : List Char :=
  if cs.getLast? = some '\n' then cs.dropLast else cs

/-- `_parse_gufunc_signature` from the source: validate against
`_SIGNATURE` and extract, per side of `->`, one tuple of dimension names
per parenthesized group.  `none` is the `ValueError` ("not a valid gufunc
signature"). -/
def _parse_gufunc_signature (s : String) : Option (CoreDims × CoreDims) :=
  parseSignatureChars (stripFinalNewline s.data)

/-- `vectorize(signature)` parses once at decoration time and fails with
`InvalidSignature` on a malformed signature string. -/
def vectorizeSig (s : String) : Except VecError (CoreDims × CoreDims) :=
  match _parse_gufunc_signature s with
  | some r => Except.ok r
  | none => Except.error VecError.invalidSignature

/-! ## The signature grammar, stated declaratively

These definitions follow the spec's words (section 6): `signature :=
groups "->" groups`; `groups := group ("," group)*`; `group := "(" [name
("," name)*] ")"`; `name := [A-Za-z0-9_]+`.  They are the specification
side against which the regex transcription above is compared. -/

/-- The text between the parentheses of a group: its names joined by
commas. -/
def groupChars (g : List DimName) : List Char :=
  joinSep ',' g

/-- A rendered group: an opening parenthesis, the group's names joined by
commas, a closing parenthesis. -/
def renderGroup (g : List DimName) : List Char :=
  '(' :: groupChars g ++ [')']

/-- One side of a signature: `group ("," group)*`. -/
def renderSide (side : CoreDims) : List Char :=
  joinSep ',' (side.map renderGroup)

/-- Well-formedness of one side of the grammar: at least one group, every
name a nonempty run of `[A-Za-z0-9_]`. -/
def sideOK (side : CoreDims) : Bool :=
  !side.isEmpty && side.all (fun g => g.all nameOK)

/-- `cs` is exactly the rendering of the parsed structure `(ins, outs)`
under the spec grammar `groups "->" groups`. -/
def SigMatches (cs : List Char) (ins outs : CoreDims) : Prop :=
  sideOK ins = true ∧ sideOK outs = true ∧
    cs = renderSide ins ++ '-' :: '>' :: renderSide outs

/-- The spec grammar as a language: some structure renders to `cs`. -/
def InGrammar (cs : List Char) : Prop :=
  ∃ ins outs, SigMatches cs ins outs

/-- The parts produced by splitting a rendered side on `')'`, without the
trailing empty part. -/
def partsOf : CoreDims → List (List Char)
  | [] => []
  | g :: gs => ('(' :: groupChars g) :: gs.map (fun g2 => ',' :: '(' :: groupChars g2)

/-- The number of occurrences of the substring `->`. -/
def arrowCount : List Char → Nat
  | [] => 0
  | c :: rest => (if c = '-' ∧ rest.head? = some '>' then 1 else 0) + arrowCount rest

/-! ## Arrays

An n-dimensional array is a shape plus a total function from index lists
to values; only indices pointwise below the shape are observable. -/

/-- The array model: a shape together with the element at every index
list. -/
structure NDArray (α : Type) where
  shape : Shape
  data : List Nat → α

instance [Inhabited α] : Inhabited (NDArray α) :=
  ⟨⟨[], fun _ => default⟩⟩

/-- An index list valid for a shape: same length and pointwise below. -/
def ValidIdx (s : Shape) (idx : List Nat) : Prop :=
  List.Forall₂ (fun i d => i < d) idx s

/-- What a Python core function returns: a bare array, or a tuple of
arrays. -/
inductive Result (α : Type) where
  | single : NDArray α → Result α
  | tuple : List (NDArray α) → Result α

/-- The outputs of a result, in order (a bare array is one output). -/
def Result.toList : Result α → List (NDArray α)
  | .single a => [a]
  | .tuple l => l

/-- Whether a result is a bare array rather than a tuple. -/
def Result.isSingle : Result α → Bool
  | .single _ => true
  | .tuple _ => false

/-- The j-th output of a result. -/
def Result.nth [Inhabited α] (r : Result α) (j : Nat) : NDArray α :=
  r.toList.getD j default

/-- The type of a core function in the model. -/
abbrev Func (α : Type) := List (NDArray α) → Result α

/-! ## Dimension resolver (`_update_dim_sizes`, `_parse_input_dimensions`) -/

/-- A dimension-size table: an association list in insertion order
(modelling the Python dict `dim_sizes`). -/
abbrev DimTable := List (DimName × Nat)

/-- Lookup of the first binding of a name (for a table with unique keys
this is dict lookup; on an occurrence list it is the first occurrence). -/
def lookupT : List (DimName × Nat) → DimName → Option Nat
  | [], _ => none
  | p :: ps, n => if p.1 = n then some p.2 else lookupT ps n

/-- One step of the loop body of `_update_dim_sizes`: check one
`(dim, size)` pair against the table, extending it at a first
occurrence. -/
def updateOne (t : DimTable) (p : DimName × Nat) : Except VecError DimTable :=
  match lookupT t p.1 with
  | some s0 => if p.2 = s0 then .ok t else .error (.inconsistentDim p.1 p.2 s0)
  | none => .ok (t ++ [p])

/-- The loop of `_update_dim_sizes` over `zip(core_dims, core_shape)`. -/
def occFold : List (DimName × Nat) → DimTable → Except VecError DimTable
  | [], t => .ok t
  | p :: ps, t =>
    match updateOne t p with
    | .ok t2 => occFold ps t2
    | .error e => .error e

/-- The trailing `k` entries of a shape (`arg.shape[-k:]` for `k ≥ 1`). -/
def lastN (k : Nat) (s : Shape) : Shape := s.drop (s.length - k)

/-- `_update_dim_sizes` from the source: no-op on an empty core-dimension
tuple, otherwise a rank check followed by the walk over the paired core
shape entries. -/
def _update_dim_sizes (t : DimTable) (sh : Shape) (cds : List DimName) :
    Except VecError DimTable :=
  if cds.isEmpty then .ok t
  else if sh.length < cds.length then .error (.insufficientRank sh.length cds)
  else occFold (cds.zip (lastN cds.length sh)) t

/-- The walk of `_parse_input_dimensions` over all arguments in order. -/
def walkAux : List (Shape × List DimName) → DimTable → Except VecError DimTable
  | [], t => .ok t
  | p :: ps, t =>
    match _update_dim_sizes t p.1 p.2 with
    | .ok t2 => walkAux ps t2
    | .error e => .error e

/-- The non-core part of an argument's shape (`arg.shape[:ndim]` with
`ndim = arg.ndim - len(core_dims)`). -/
def batchPart (s : Shape) (cds : List DimName) : Shape :=
  s.take (s.length - cds.length)

/-- The non-core shapes of all arguments (the dummy arrays handed to
`_broadcast_shape`). -/
def batchShapes (shapes : List Shape) (icd : CoreDims) : List Shape :=
  (shapes.zip icd).map (fun p => batchPart p.1 p.2)

/-- One step of numpy's broadcast combine for one aligned dimension:
size 1 is absorbed, equal sizes agree, anything else conflicts. -/
def broadcastDim (a d : Nat) : Option Nat :=
  if d = 1 then some a
  else if a = 1 then some d
  else if a = d then some a
  else none

/-- Combine one aligned column of dimension sizes, in argument order. -/
def foldDim : List Nat → Nat → Option Nat
  | [], a => some a
  | d :: ds, a =>
    match broadcastDim a d with
    | some a2 => foldDim ds a2
    | none => none

/-- The largest rank among a list of shapes. -/
def maxLen (shapes : List Shape) : Nat :=
  shapes.foldr (fun s m => max s.length m) 0

/-- Right-aligned simultaneous broadcasting over reversed shapes, one
aligned position at a time. -/
def bshapeAux : Nat → List (List Nat) → Option (List Nat)
  | 0, _ => some []
  | L + 1, rs => do
    let d ← foldDim (rs.filterMap List.head?) 1
    let rest ← bshapeAux L (rs.map List.tail)
    pure (d :: rest)

/-- Modelled from the spec: numpy's `_broadcast_shape` — the standard
right-aligned array-broadcast result of a list of shapes, `none` when no
consistent result exists. -/
def broadcastShapes (shapes : List Shape) : Option Shape :=
  (bshapeAux (maxLen shapes) (shapes.map List.reverse)).map List.reverse

/-- The dimension size at right-aligned position `i` (counting from the
trailing axis), `none` when the shape is too short. -/
def alignedGet (s : Shape) (i : Nat) : Option Nat :=
  s.reverse.get? i

/-- The spec's characterization of the broadcast result (section 3): align
shapes on the right; each present dimension is either 1 or equal to the
result's dimension; each result dimension is 1 or contributed by some
shape. -/
def IsBroadcastResult (shapes : List Shape) (r : Shape) : Prop :=
  r.length = maxLen shapes ∧
  (∀ s ∈ shapes, ∀ i d, alignedGet s i = some d → d = 1 ∨ alignedGet r i = some d) ∧
  (∀ i d, alignedGet r i = some d → d = 1 ∨ ∃ s ∈ shapes, alignedGet s i = some d)

/-- `_parse_input_dimensions` from the source: walk all arguments through
`_update_dim_sizes`, then broadcast the non-core shapes. -/
def _parse_input_dimensions (shapes : List Shape) (icd : CoreDims) :
    Except VecError (Shape × DimTable) :=
  match walkAux (shapes.zip icd) [] with
  | .error e => .error e
  | .ok t =>
    match broadcastShapes (batchShapes shapes icd) with
    | some b => .ok (b, t)
    | none => .error (.broadcastError (batchShapes shapes icd))

/-- The resolved core shape of one argument or output group (all names of
an input group are present in the table when the walk succeeded; the
default is unreachable there). -/
def coreShapeOf (t : DimTable) (cds : List DimName) : Shape :=
  cds.map (fun n => (lookupT t n).getD 0)

/-- `_calculate_shapes` from the source. -/
def _calculate_shapes (b : Shape) (t : DimTable) (lcd : CoreDims) : List Shape :=
  lcd.map (fun cds => b ++ coreShapeOf t cds)

/-! ## Broadcast expander -/

/-- Right-aligned compatibility of a source shape with a broadcast target,
on reversed shapes: every source dimension equals the target's or is 1,
and the source rank does not exceed the target's. -/
def compatR : List Nat → List Nat → Bool
  | [], _ => true
  | _ :: _, [] => false
  | s :: ss, t :: ts => (s == t || s == 1) && compatR ss ts

/-- The source index corresponding to a target index under broadcasting:
drop the new leading axes, send tiled size-1 axes to index 0. -/
def bcastIdx (src tgt : Shape) (idx : List Nat) : List Nat :=
  ((idx.drop (tgt.length - src.length)).zip src).map
    (fun p => if p.2 = 1 then 0 else p.1)

/-- Modelled from the spec: `jnp.broadcast_to` — a broadcast view of an
array at a target shape, `none` when the shapes are incompatible. -/
def broadcast_to (a : NDArray α) (tgt : Shape) : Option (NDArray α) :=
  if compatR a.shape.reverse tgt.reverse then
    some ⟨tgt, fun idx => a.data (bcastIdx a.shape tgt idx)⟩
  else none

/-- Broadcast every argument to its computed target shape
(`zip(args, input_shapes)` truncates like Python's `zip`). -/
def bcastArgs : List (NDArray α) → List Shape → Except VecError (List (NDArray α))
  | [], _ => .ok []
  | _, [] => .ok []
  | a :: rest, sh :: shs =>
    match broadcast_to a sh with
    | some b =>
      match bcastArgs rest shs with
      | .ok bs => .ok (b :: bs)
      | .error e => .error e
    | none => .error (.broadcastError [a.shape, sh])

/-- `broadcast_with_core_dims` from the source.  The `output_core_dims`
parameter is accepted but never used by the body, exactly as in the
source. -/
def broadcast_with_core_dims (args : List (NDArray α)) (icd ocd : CoreDims) :
    Except VecError (List (NDArray α)) :=
  if args.length ≠ icd.length then
    .error (.arityMismatch icd.length args.length)
  else
    match _parse_input_dimensions (args.map (·.shape)) icd with
    | .error e => .error e
    | .ok (b, t) => bcastArgs args (_calculate_shapes b t icd)

/-! ## Axis rebinder -/

/-- Normalize a possibly negative axis against a rank (numpy
convention). -/
def normAxis (r : Nat) (ax : Int) : Nat :=
  (if ax < 0 then ax + r else ax).toNat

/-- Insert an element at a position (appending when the position is past
the end). -/
def insertAt : Nat → α → List α → List α
  | 0, x, l => x :: l
  | _ + 1, x, [] => [x]
  | n + 1, x, a :: l => a :: insertAt n x l

/-- Position of the first occurrence of a number in a list. -/
def idxOfN (x : Nat) : List Nat → Nat
  | [] => 0
  | a :: l => if a = x then 0 else idxOfN x l + 1

/-- Modelled from the spec: `jnp.moveaxis` — move the axis at `src` to
position `dst`, a pure permutation of axes changing no values. -/
def moveaxis (a : NDArray α) (src dst : Int) : NDArray α :=
  let r := a.shape.length
  let s := normAxis r src
  let d := normAxis r dst
  let order := insertAt d s ((List.range r).filter (fun j => j ≠ s))
  { shape := order.map (fun j => a.shape.getD j 0)
    data := fun idx => a.data ((List.range r).map (fun j => idx.getD (idxOfN j order) 0)) }

/-- The distinct core-dimension names of a signature, in first-occurrence
order (the contents of the set `all_core_dims` built by the source). -/
def allCoreDimNames (icd ocd : CoreDims) : List DimName :=
  ((icd ++ ocd).foldr (· ++ ·) []).dedup

/-- `verify_axis_is_supported` from the source, faithfully: the loop
builds the set `all_core_dims`, but the test after the loops reads the
loop variable `core_dims`, i.e. the LAST core-dimension tuple iterated
(the last output group when there is one).  With both sides empty the
Python function would hit a NameError; that point is unreachable from
`vectorize`, whose grammar guarantees a group on each side. -/
def verify_axis_is_supported (icd ocd : CoreDims) : Except VecError Unit :=
  if ((icd ++ ocd).getLastD []).length > 1 then .error .axisNotSupported
  else .ok ()

/-- `reorder_inputs` from the source: move axis `axis` to the last
position on every argument that declares a nonempty core-dimension
tuple. -/
def reorder_inputs (args : List (NDArray α)) (ax : Int) (icd : CoreDims) :
    List (NDArray α) :=
  (args.zip icd).map (fun p => if p.2.isEmpty then p.1 else moveaxis p.1 ax (-1))

/-- `reorder_outputs` from the source: wrap a bare result, move the last
axis back to `axis` on outputs that declare a core dimension, unwrap a
length-one tuple. -/
def reorder_outputs (res : Result α) (ax : Int) (ocd : CoreDims) : Result α :=
  let rs := (res.toList.zip ocd).map
    (fun p => if p.2.isEmpty then p.1 else moveaxis p.1 (-1) ax)
  match rs with
  | [r] => .single r
  | other => .tuple other

/-! ## Batch mapper and facade -/

/-- The slice of an array at index `i` of its leading axis. -/
def sliceHead (a : NDArray α) (i : Nat) : NDArray α :=
  ⟨a.shape.tail, fun idx => a.data (i :: idx)⟩

/-- Slice every argument at index `i` of its leading axis. -/
def sliceAll (args : List (NDArray α)) (i : Nat) : List (NDArray α) :=
  args.map (fun a => sliceHead a i)

/-- Modelled from the spec: `jax.vmap` — the automatic-batching primitive.
The lifted function applies `f` independently per index along one leading
axis of every argument simultaneously and reinstates that axis on every
output. -/
def vmap [Inhabited α] (f : Func α) (args : List (NDArray α)) : Result α :=
  let B := (args.headD default).shape.headD 0
  let mk := fun (j : Nat) (p : NDArray α) =>
    NDArray.mk (B :: p.shape)
      (fun idx => ((f (sliceAll args (idx.headD 0))).nth j).data idx.tail)
  match f (sliceAll args 0) with
  | .single p => .single (mk 0 p)
  | .tuple ps => .tuple ((List.range ps.length).map (fun j => mk j (ps.getD j default)))

/-- The loop `for _ in range(num_batch_dims): vectorized_func =
vmap(vectorized_func)`. -/
def vmapIter [Inhabited α] : Nat → Func α → Func α
  | 0, f => f
  | n + 1, f => vmap (vmapIter n f)

/-- Slice all arguments along their leading axes at a tuple of leading
indices (the explicit nested loop of the spec's guarantee). -/
def multiSlice (args : List (NDArray α)) : List Nat → List (NDArray α)
  | [] => args
  | i :: rest => multiSlice (sliceAll args i) rest

/-- The `wrapper` closure returned by the decorator, for a parsed
signature `(icd, ocd)`: optional axis rebinding, broadcasting, repeated
`vmap`, invocation, optional output rebinding. -/
def wrapper [Inhabited α] (func : Func α) (icd ocd : CoreDims)
    (args : List (NDArray α)) (axis : Option Int) : Except VecError (Result α) :=
  let step1 : Except VecError (List (NDArray α)) :=
    match axis with
    | none => .ok args
    | some ax =>
      match verify_axis_is_supported icd ocd with
      | .error e => .error e
      | .ok _ => .ok (reorder_inputs args ax icd)
  match step1 with
  | .error e => .error e
  | .ok args2 =>
    match broadcast_with_core_dims args2 icd ocd with
    | .error e => .error e
    | .ok bargs =>
      let nb := (bargs.headD default).shape.length - (icd.headD []).length
      let res := vmapIter nb func bargs
      match axis with
      | none => .ok res
      | some ax => .ok (reorder_outputs res ax ocd)

/-! ## Observation helpers and claim-specific definitions -/

/-- The error of a failed call, when it failed. -/
def errOf : Except VecError (Result α) → Option VecError
  | .error e => some e
  | .ok _ => none

/-- The result of a successful call (an empty tuple on error). -/
def getOk : Except VecError (Result α) → Result α
  | .ok r => r
  | .error _ => .tuple []

/-- The output shapes of a successful call. -/
def okShapes : Except VecError (Result α) → Option (List Shape)
  | .ok r => some (r.toList.map NDArray.shape)
  | .error _ => none

/-- A core function whose outputs, on inputs of the given shapes, have the
given shapes and the given bare-vs-tuple structure. -/
def ShapedFn [Inhabited α] (f : Func α) (inS outS : List Shape) (sng : Bool) : Prop :=
  ∀ args : List (NDArray α), args.map NDArray.shape = inS →
    (f args).toList.map NDArray.shape = outS ∧ (f args).isSingle = sng

/-- A core function with a fixed number of outputs. -/
def UniformFn (f : Func α) (m : Nat) : Prop :=
  ∀ args, (f args).toList.length = m

/-- Per-argument rank sufficiency (the precondition of the dimension
walk). -/
def ranksOK (shapes : List Shape) (icd : CoreDims) : Bool :=
  (shapes.zip icd).all (fun p => p.2.length ≤ p.1.length)

/-- The `(dim, size)` pairs visited by the dimension walk, in argument
order. -/
def occsOf (shapes : List Shape) (icd : CoreDims) : List (DimName × Nat) :=
  ((shapes.zip icd).map (fun p => p.2.zip (lastN p.2.length p.1))).foldr (· ++ ·) []

/-- The size a name is fixed to: its binding in the table built so far,
or else its first occurrence in the remaining walk. -/
def firstSize (t : DimTable) (occs : List (DimName × Nat)) (n : DimName) : Option Nat :=
  match lookupT t n with
  | some v => some v
  | none => lookupT occs n

/-- Sum of a list of rationals. -/
def listSumQ (l : List ℚ) : ℚ := l.foldr (· + ·) 0

/-- `jnp.mean` of a one-dimensional array of rationals (modelled from the
spec's collaborator interface). -/
def meanQ (a : NDArray ℚ) : ℚ :=
  listSumQ ((List.range (a.shape.getD 0 0)).map (fun i => a.data [i])) /
    (a.shape.getD 0 0 : ℚ)

/-- The `center` core function of the notebook: `bias = mean(array)`,
`debiased = array - bias`, returned as a pair. -/
def centerF : Func ℚ := fun args =>
  let a := args.headD default
  let bias := meanQ a
  .tuple [⟨[], fun _ => bias⟩, ⟨a.shape, fun idx => a.data idx - bias⟩]

/-- A 3 × 4 matrix of rationals with the given entries. -/
def mkMat34 (f : List Nat → ℚ) : NDArray ℚ := ⟨[3, 4], f⟩

/-- The mean of row `i` of a 3 × 4 matrix. -/
def rowMeanQ (f : List Nat → ℚ) (i : Nat) : ℚ :=
  (f [i, 0] + f [i, 1] + f [i, 2] + f [i, 3]) / 4

/-- The mean of column `j` of a 3 × 4 matrix. -/
def colMeanQ (f : List Nat → ℚ) (j : Nat) : ℚ :=
  (f [0, j] + f [1, j] + f [2, j]) / 3

/-- The nine-character string of an otherwise valid signature followed by
one newline. -/
def sigNl : String := ⟨['(', 'n', ')', '-', '>', '(', 'n', ')', '\n']⟩

/-! ## Lemmas: splitting and joining character lists -/

theorem splitOnC_ne_nil (sep : Char) (cs : List Char) : splitOnC sep cs ≠ [] := by
  induction cs with
  | nil => simp [splitOnC]
  | cons c cs ih =>
    simp only [splitOnC]
    split
    · simp
    · cases h : splitOnC sep cs with
      | nil => simp
      | cons p ps => simp

theorem joinSep_cons_cons (sep c : Char) (p : List Char) (ps : List (List Char)) :
    joinSep sep ((c :: p) :: ps) = c :: joinSep sep (p :: ps) := by
  cases ps <;> rfl

theorem joinSep_splitOnC (sep : Char) (cs : List Char) :
    joinSep sep (splitOnC sep cs) = cs := by
  induction cs with
  | nil => rfl
  | cons c cs ih =>
    simp only [splitOnC]
    split
    · rename_i hc
      cases h : splitOnC sep cs with
      | nil => exact absurd h (splitOnC_ne_nil sep cs)
      | cons p ps =>
        rw [h] at ih
        subst hc
        simpa [joinSep] using ih
    · cases h : splitOnC sep cs with
      | nil => exact absurd h (splitOnC_ne_nil sep cs)
      | cons p ps =>
        rw [h] at ih
        rw [joinSep_cons_cons, ih]

theorem not_mem_splitOnC (sep : Char) (cs : List Char) :
    ∀ p ∈ splitOnC sep cs, sep ∉ p := by
  induction cs with
  | nil =>
    intro p hp
    simp [splitOnC] at hp
    simp [hp]
  | cons c cs ih =>
    intro p hp
    simp only [splitOnC] at hp
    split at hp
    · rcases List.mem_cons.mp hp with h | h
      · simp [h]
      · exact ih p h
    · rename_i hc
      cases h : splitOnC sep cs with
      | nil => exact absurd h (splitOnC_ne_nil sep cs)
      | cons q qs =>
        rw [h] at hp
        rcases List.mem_cons.mp hp with h2 | h2
        · subst h2
          intro hmem
          rcases List.mem_cons.mp hmem with h3 | h3
          · exact hc h3.symm
          · exact ih q (h ▸ List.mem_cons_self q qs) h3
        · exact ih p (h ▸ List.mem_cons_of_mem q h2)

theorem splitOnC_append_not_mem (sep : Char) (p l : List Char) (hp : sep ∉ p)
    (q : List Char) (qs : List (List Char)) (hl : splitOnC sep l = q :: qs) :
    splitOnC sep (p ++ l) = (p ++ q) :: qs := by
  induction p with
  | nil => simpa using hl
  | cons a p ih =>
    have ha : a ≠ sep := fun h => hp (h ▸ List.mem_cons_self a p)
    have hp2 : sep ∉ p := fun h => hp (List.mem_cons_of_mem a h)
    simp only [List.cons_append, splitOnC, if_neg ha, List.append_eq]
    rw [ih hp2]

theorem splitOnC_joinSep (sep : Char) (parts : List (List Char)) (h : parts ≠ [])
    (hs : ∀ p ∈ parts, sep ∉ p) : splitOnC sep (joinSep sep parts) = parts := by
  induction parts with
  | nil => exact absurd rfl h
  | cons p ps ih =>
    cases ps with
    | nil =>
      have hp : sep ∉ p := hs p (List.mem_cons_self p [])
      have : joinSep sep [p] = p ++ [] := by simp [joinSep]
      rw [this, splitOnC_append_not_mem sep p [] hp [] [] (by simp [splitOnC])]
      simp
    | cons p2 ps2 =>
      have hp : sep ∉ p := hs p (List.mem_cons_self p _)
      have hrec : splitOnC sep (joinSep sep (p2 :: ps2)) = p2 :: ps2 :=
        ih (by simp) (fun q hq => hs q (List.mem_cons_of_mem p hq))
      have : joinSep sep (p :: p2 :: ps2) = p ++ sep :: joinSep sep (p2 :: ps2) := rfl
      rw [this,
        splitOnC_append_not_mem sep p (sep :: joinSep sep (p2 :: ps2)) hp [] (p2 :: ps2)
          (by simp [splitOnC, hrec]),
        List.append_nil]

theorem mem_joinSep (sep : Char) (ps : List (List Char)) (c : Char)
    (h : c ∈ joinSep sep ps) : c = sep ∨ ∃ p ∈ ps, c ∈ p := by
  induction ps with
  | nil => simp [joinSep] at h
  | cons p ps ih =>
    cases ps with
    | nil =>
      right
      exact ⟨p, List.mem_cons_self p [], by simpa [joinSep] using h⟩
    | cons p2 ps2 =>
      have : joinSep sep (p :: p2 :: ps2) = p ++ sep :: joinSep sep (p2 :: ps2) := rfl
      rw [this] at h
      rcases List.mem_append.mp h with h2 | h2
      · exact Or.inr ⟨p, List.mem_cons_self p _, h2⟩
      · rcases List.mem_cons.mp h2 with h3 | h3
        · exact Or.inl h3
        · rcases ih h3 with h4 | ⟨q, hq, hcq⟩
          · exact Or.inl h4
          · exact Or.inr ⟨q, List.mem_cons_of_mem p hq, hcq⟩

/-! ## Lemmas: group contents and argument lists -/

theorem nameOK_word {n : DimName} (h : nameOK n = true) :
    ∀ c ∈ n, isWordChar c = true := by
  have := (Bool.and_eq_true _ _).mp h
  exact fun c hc => List.all_eq_true.mp this.2 c hc

theorem nameOK_ne_nil {n : DimName} (h : nameOK n = true) : n ≠ [] := by
  have := (Bool.and_eq_true _ _).mp h
  intro he
  subst he
  simp at this

theorem word_not_comma {c : Char} (h : isWordChar c = true) : c ≠ ',' := by
  intro he
  subst he
  simp [isWordChar] at h

theorem word_not_rparen {c : Char} (h : isWordChar c = true) : c ≠ ')' := by
  intro he
  subst he
  simp [isWordChar] at h

theorem word_not_dash {c : Char} (h : isWordChar c = true) : c ≠ '-' := by
  intro he
  subst he
  simp [isWordChar] at h

theorem mem_groupChars {g : List DimName} {c : Char} (h : g.all nameOK = true)
    (hm : c ∈ groupChars g) : isWordChar c = true ∨ c = ',' := by
  rcases mem_joinSep ',' g c hm with h2 | ⟨n, hn, hcn⟩
  · exact Or.inr h2
  · exact Or.inl (nameOK_word (List.all_eq_true.mp h n hn) c hcn)

theorem groupChars_ne_nil {g : List DimName} (h : g.all nameOK = true)
    (hg : g ≠ []) : groupChars g ≠ [] := by
  cases g with
  | nil => exact absurd rfl hg
  | cons n gs =>
    have hn : n ≠ [] := nameOK_ne_nil (List.all_eq_true.mp h n (List.mem_cons_self n gs))
    cases gs with
    | nil => simpa [groupChars, joinSep] using hn
    | cons g2 gs2 =>
      have : groupChars (n :: g2 :: gs2) = n ++ ',' :: joinSep ',' (g2 :: gs2) := rfl
      rw [this]
      intro he
      exact hn (List.append_eq_nil.mp he).1

theorem parseGroupContent_sound {cs : List Char} {g : List DimName}
    (h : parseGroupContent cs = some g) :
    cs = groupChars g ∧ g.all nameOK = true := by
  by_cases hcs : cs = []
  · subst hcs
    simp [parseGroupContent] at h
    subst h
    exact ⟨rfl, rfl⟩
  · simp only [parseGroupContent, if_neg hcs] at h
    split at h
    · rename_i hall
      have hg : g = splitOnC ',' cs := by
        injection h with h2
        exact h2.symm
      subst hg
      exact ⟨(joinSep_splitOnC ',' cs).symm, hall⟩
    · exact absurd h (by simp)

theorem parseGroupContent_complete {g : List DimName} (h : g.all nameOK = true) :
    parseGroupContent (groupChars g) = some g := by
  by_cases hg : g = []
  · subst hg
    rfl
  · have hne : groupChars g ≠ [] := groupChars_ne_nil h hg
    have hsplit : splitOnC ',' (groupChars g) = g :=
      splitOnC_joinSep ',' g hg
        (fun n hn hc =>
          word_not_comma (nameOK_word (List.all_eq_true.mp h n hn) ',' hc) rfl)
    simp only [parseGroupContent, if_neg hne, hsplit, if_pos h]

theorem mapMo_some_iff {f : α → Option β} :
    ∀ {l : List α} {res : List β},
      mapMo f l = some res ↔ List.Forall₂ (fun a b => f a = some b) l res := by
  intro l
  induction l with
  | nil =>
    intro res
    constructor
    · intro h
      simp [mapMo] at h
      subst h
      exact List.Forall₂.nil
    · intro h
      cases h
      rfl
  | cons a l ih =>
    intro res
    constructor
    · intro h
      simp only [mapMo, Option.bind_eq_bind, Option.bind_eq_some] at h
      obtain ⟨b, hb, bs, hbs, he⟩ := h
      have he2 : b :: bs = res := by simpa using he
      subst he2
      exact List.Forall₂.cons hb (ih.mp hbs)
    · intro h
      cases h with
      | cons hb hrest =>
        simp only [mapMo, Option.bind_eq_bind, Option.bind_eq_some]
        exact ⟨_, hb, _, ih.mpr hrest, rfl⟩

theorem render_eq_join (g : List DimName) (gs : CoreDims) :
    joinSep ')' (partsOf (g :: gs) ++ [[]]) = renderSide (g :: gs) := by
  induction gs generalizing g with
  | nil => rfl
  | cons g2 rest ih =>
    have h1 : partsOf (g :: g2 :: rest) ++ [[]] =
        ('(' :: groupChars g) ::
          ((',' :: '(' :: groupChars g2) ::
            (rest.map (fun g3 => ',' :: '(' :: groupChars g3) ++ [[]])) := by
      simp [partsOf]
    have h2 : joinSep ')'
        (('(' :: groupChars g) ::
          ((',' :: '(' :: groupChars g2) ::
            (rest.map (fun g3 => ',' :: '(' :: groupChars g3) ++ [[]]))) =
        ('(' :: groupChars g) ++ ')' ::
          joinSep ')' ((',' :: '(' :: groupChars g2) ::
            (rest.map (fun g3 => ',' :: '(' :: groupChars g3) ++ [[]])) := by
      rfl
    have h3 : joinSep ')' ((',' :: '(' :: groupChars g2) ::
          (rest.map (fun g3 => ',' :: '(' :: groupChars g3) ++ [[]])) =
        ',' :: joinSep ')' (partsOf (g2 :: rest) ++ [[]]) := by
      have := joinSep_cons_cons ')' ',' ('(' :: groupChars g2)
        (rest.map (fun g3 => ',' :: '(' :: groupChars g3) ++ [[]])
      rw [this]
      rfl
    rw [h1, h2, h3, ih g2]
    have h4 : renderSide (g :: g2 :: rest) =
        renderGroup g ++ ',' :: renderSide (g2 :: rest) := by
      rfl
    rw [h4]
    simp [renderGroup]

theorem groupOfPart_true_sound {p : List Char} {g : List DimName}
    (h : groupOfPart true p = some g) :
    p = '(' :: groupChars g ∧ g.all nameOK = true := by
  cases p with
  | nil => simp [groupOfPart] at h
  | cons c content =>
    simp only [groupOfPart, if_pos rfl] at h
    by_cases hc : c = '('
    · subst hc
      rw [if_pos rfl] at h
      obtain ⟨h1, h2⟩ := parseGroupContent_sound h
      exact ⟨by rw [h1], h2⟩
    · rw [if_neg hc] at h
      exact absurd h (by simp)

theorem groupOfPart_false_sound {p : List Char} {g : List DimName}
    (h : groupOfPart false p = some g) :
    p = ',' :: '(' :: groupChars g ∧ g.all nameOK = true := by
  cases p with
  | nil => simp [groupOfPart] at h
  | cons c rest =>
    cases rest with
    | nil => simp [groupOfPart] at h
    | cons c2 content =>
      simp only [groupOfPart, Bool.false_eq_true, if_false] at h
      by_cases hc : c = ',' ∧ c2 = '('
      · rw [if_pos hc] at h
        obtain ⟨h1, h2⟩ := parseGroupContent_sound h
        exact ⟨by rw [h1, hc.1, hc.2], h2⟩
      · rw [if_neg hc] at h
        exact absurd h (by simp)

theorem groupOfPart_true_complete {g : List DimName} (h : g.all nameOK = true) :
    groupOfPart true ('(' :: groupChars g) = some g := by
  simp [groupOfPart, parseGroupContent_complete h]

theorem groupOfPart_false_complete {g : List DimName} (h : g.all nameOK = true) :
    groupOfPart false (',' :: '(' :: groupChars g) = some g := by
  simp [groupOfPart, parseGroupContent_complete h]

theorem mapMo_groupOfPart_sound :
    ∀ {ps : List (List Char)} {gs : CoreDims},
      mapMo (groupOfPart false) ps = some gs →
      ps = gs.map (fun g2 => ',' :: '(' :: groupChars g2) ∧
        ∀ g2 ∈ gs, g2.all nameOK = true := by
  intro ps
  induction ps with
  | nil =>
    intro gs h
    simp [mapMo] at h
    subst h
    exact ⟨rfl, by simp⟩
  | cons p ps ih =>
    intro gs h
    simp only [mapMo, Option.bind_eq_bind, Option.bind_eq_some] at h
    obtain ⟨g, hg, gs2, hgs2, heq⟩ := h
    have heq2 : g :: gs2 = gs := by simpa using heq
    subst heq2
    obtain ⟨h1, h2⟩ := groupOfPart_false_sound hg
    obtain ⟨h3, h4⟩ := ih hgs2
    refine ⟨by rw [List.map_cons, ← h3, h1], ?_⟩
    intro g2 hg2
    rcases List.mem_cons.mp hg2 with h5 | h5
    · subst h5; exact h2
    · exact h4 g2 h5

theorem mapMo_groupOfPart_complete {gs : CoreDims}
    (h : ∀ g2 ∈ gs, g2.all nameOK = true) :
    mapMo (groupOfPart false) (gs.map (fun g2 => ',' :: '(' :: groupChars g2)) =
      some gs := by
  induction gs with
  | nil => rfl
  | cons g gs ih =>
    simp only [List.map_cons, mapMo,
      groupOfPart_false_complete (h g (List.mem_cons_self g gs)),
      ih (fun g2 hg2 => h g2 (List.mem_cons_of_mem g hg2))]
    rfl

theorem mem_partsOf_no_rparen {side : CoreDims} (h : sideOK side = true) :
    ∀ p ∈ partsOf side ++ [[]], ')' ∉ p := by
  have hall : ∀ g ∈ side, g.all nameOK = true := by
    have := (Bool.and_eq_true _ _).mp h
    exact fun g hg => List.all_eq_true.mp this.2 g hg
  intro p hp
  rcases List.mem_append.mp hp with hp | hp
  · cases side with
    | nil => simp [partsOf] at hp
    | cons g gs =>
      simp only [partsOf] at hp
      rcases List.mem_cons.mp hp with h2 | h2
      · subst h2
        intro hmem
        rcases List.mem_cons.mp hmem with h3 | h3
        · exact absurd h3.symm (by decide)
        · rcases mem_groupChars (hall g (List.mem_cons_self g gs)) h3 with hw | hw
          · exact word_not_rparen hw rfl
          · exact absurd hw (by decide)
      · obtain ⟨g2, hg2, he⟩ := List.mem_map.mp h2
        subst he
        intro hmem
        rcases List.mem_cons.mp hmem with h3 | h3
        · exact absurd h3.symm (by decide)
        · rcases List.mem_cons.mp h3 with h4 | h4
          · exact absurd h4.symm (by decide)
          · rcases mem_groupChars (hall g2 (List.mem_cons_of_mem g hg2)) h4 with hw | hw
            · exact word_not_rparen hw rfl
            · exact absurd hw (by decide)
  · simp at hp
    simp [hp]

theorem parseArgList_sound {cs : List Char} {side : CoreDims}
    (h : parseArgList cs = some side) :
    cs = renderSide side ∧ sideOK side = true := by
  by_cases hlast : (splitOnC ')' cs).getLast? = some []
  · simp only [parseArgList, if_pos hlast] at h
    cases hdrop : (splitOnC ')' cs).dropLast with
    | nil => rw [hdrop] at h; exact absurd h (by simp)
    | cons p ps =>
      rw [hdrop] at h
      simp only [Option.bind_eq_bind, Option.bind_eq_some] at h
      obtain ⟨g, hg, gs, hgs, heq⟩ := h
      have heq2 : g :: gs = side := by simpa using heq
      subst heq2
      obtain ⟨hp, hgOK⟩ := groupOfPart_true_sound hg
      obtain ⟨hps, hgsOK⟩ := mapMo_groupOfPart_sound hgs
      have hne : splitOnC ')' cs ≠ [] := splitOnC_ne_nil ')' cs
      have hlast2 : (splitOnC ')' cs).getLast hne = [] := by
        have := List.getLast?_eq_getLast (splitOnC ')' cs) hne
        rw [hlast] at this
        exact (Option.some_injective _ this).symm
      have hparts : splitOnC ')' cs = partsOf (g :: gs) ++ [[]] := by
        have hsplit := List.dropLast_append_getLast hne
        rw [hlast2, hdrop, hp, hps] at hsplit
        rw [← hsplit]
        rfl
      constructor
      · rw [← joinSep_splitOnC ')' cs, hparts, render_eq_join]
      · refine (Bool.and_eq_true _ _).mpr ⟨by simp, List.all_eq_true.mpr ?_⟩
        intro g2 hg2
        rcases List.mem_cons.mp hg2 with h2 | h2
        · subst h2; exact hgOK
        · exact hgsOK g2 h2
  · simp [parseArgList, hlast] at h

theorem parseArgList_complete {side : CoreDims} (h : sideOK side = true) :
    parseArgList (renderSide side) = some side := by
  have hall : ∀ g ∈ side, g.all nameOK = true := by
    have := (Bool.and_eq_true _ _).mp h
    exact fun g hg => List.all_eq_true.mp this.2 g hg
  cases side with
  | nil =>
    have := (Bool.and_eq_true _ _).mp h
    simp at this
  | cons g gs =>
    have hparts : splitOnC ')' (renderSide (g :: gs)) = partsOf (g :: gs) ++ [[]] := by
      rw [← render_eq_join]
      exact splitOnC_joinSep ')' _ (by simp [partsOf]) (mem_partsOf_no_rparen h)
    have hlast : (splitOnC ')' (renderSide (g :: gs))).getLast? = some [] := by
      rw [hparts]
      exact List.getLast?_concat _
    have hassoc : partsOf (g :: gs) ++ [[]] =
        (('(' :: groupChars g) :: gs.map (fun g2 => ',' :: '(' :: groupChars g2)) ++ [[]] := by
      rfl
    rw [hassoc] at hparts
    simp only [parseArgList, hparts, List.getLast?_concat, List.dropLast_concat]
    rw [if_pos trivial]
    rw [groupOfPart_true_complete (hall g (List.mem_cons_self g gs)),
      mapMo_groupOfPart_complete (fun g2 hg2 => hall g2 (List.mem_cons_of_mem g hg2))]
    rfl

/-! ## Lemmas: the full signature versus the spec grammar -/

theorem takeWhile_middle {p : Char → Bool} {A B : List Char} {x : Char}
    (hA : ∀ a ∈ A, p a = true) (hx : p x = false) :
    (A ++ x :: B).takeWhile p = A ∧ (A ++ x :: B).dropWhile p = x :: B := by
  induction A with
  | nil => simp [List.takeWhile, List.dropWhile, hx]
  | cons a A ih =>
    have ha : p a = true := hA a (List.mem_cons_self a A)
    have ih2 := ih (fun b hb => hA b (List.mem_cons_of_mem a hb))
    simp only [List.cons_append, List.takeWhile, List.dropWhile, ha, List.append_eq]
    exact ⟨by rw [ih2.1], ih2.2⟩

theorem mem_renderSide {side : CoreDims} {c : Char} (h : sideOK side = true)
    (hm : c ∈ renderSide side) :
    isWordChar c = true ∨ c = '(' ∨ c = ')' ∨ c = ',' := by
  have hall : ∀ g ∈ side, g.all nameOK = true := by
    have := (Bool.and_eq_true _ _).mp h
    exact fun g hg => List.all_eq_true.mp this.2 g hg
  rcases mem_joinSep ',' (side.map renderGroup) c hm with h2 | ⟨q, hq, hcq⟩
  · exact Or.inr (Or.inr (Or.inr h2))
  · obtain ⟨g, hg, he⟩ := List.mem_map.mp hq
    subst he
    rcases List.mem_cons.mp hcq with h3 | h3
    · exact Or.inr (Or.inl h3)
    · rcases List.mem_append.mp h3 with h4 | h4
      · rcases mem_groupChars (hall g hg) h4 with hw | hw
        · exact Or.inl hw
        · exact Or.inr (Or.inr (Or.inr hw))
      · simp at h4
        exact Or.inr (Or.inr (Or.inl h4))

theorem mem_sig_charset {cs : List Char} {ins outs : CoreDims}
    (h : SigMatches cs ins outs) :
    ∀ c ∈ cs, isWordChar c = true ∨ c = '(' ∨ c = ')' ∨ c = ',' ∨ c = '-' ∨ c = '>' := by
  obtain ⟨hins, houts, heq⟩ := h
  subst heq
  intro c hc
  rcases List.mem_append.mp hc with h2 | h2
  · rcases mem_renderSide hins h2 with hw | hw | hw | hw
    · exact Or.inl hw
    · exact Or.inr (Or.inl hw)
    · exact Or.inr (Or.inr (Or.inl hw))
    · exact Or.inr (Or.inr (Or.inr (Or.inl hw)))
  · rcases List.mem_cons.mp h2 with h3 | h3
    · exact Or.inr (Or.inr (Or.inr (Or.inr (Or.inl h3))))
    · rcases List.mem_cons.mp h3 with h4 | h4
      · exact Or.inr (Or.inr (Or.inr (Or.inr (Or.inr h4))))
      · rcases mem_renderSide houts h4 with hw | hw | hw | hw
        · exact Or.inl hw
        · exact Or.inr (Or.inl hw)
        · exact Or.inr (Or.inr (Or.inl hw))
        · exact Or.inr (Or.inr (Or.inr (Or.inl hw)))

theorem renderSide_no_dash {side : CoreDims} (h : sideOK side = true) :
    ∀ c ∈ renderSide side, c ≠ '-' := by
  intro c hc
  rcases mem_renderSide h hc with hw | hw | hw | hw
  · exact word_not_dash hw
  · subst hw; decide
  · subst hw; decide
  · subst hw; decide

theorem parseSignatureChars_sound {cs : List Char} {ins outs : CoreDims}
    (h : parseSignatureChars cs = some (ins, outs)) : SigMatches cs ins outs := by
  unfold parseSignatureChars at h
  cases hd : cs.dropWhile (fun c => c != '-') with
  | nil => rw [hd] at h; exact absurd h (by simp)
  | cons c rest =>
    cases rest with
    | nil => rw [hd] at h; exact absurd h (by simp)
    | cons c2 post =>
      rw [hd] at h
      dsimp only at h
      by_cases hc : c = '-' ∧ c2 = '>'
      · rw [if_pos hc] at h
        simp only [Option.bind_eq_bind, Option.bind_eq_some] at h
        obtain ⟨insv, hins, outsv, houts, heq⟩ := h
        have heq2 : (insv, outsv) = (ins, outs) := by simpa using heq
        injection heq2 with he1 he2
        subst he1; subst he2
        obtain ⟨hpre, hinsOK⟩ := parseArgList_sound hins
        obtain ⟨hpost, houtsOK⟩ := parseArgList_sound houts
        refine ⟨hinsOK, houtsOK, ?_⟩
        have hsplit := List.takeWhile_append_dropWhile (p := fun c => c != '-') (l := cs)
        rw [hd, hpre, hpost, hc.1, hc.2] at hsplit
        exact hsplit.symm
      · rw [if_neg hc] at h
        exact absurd h (by simp)

theorem parseSignatureChars_complete {cs : List Char} {ins outs : CoreDims}
    (h : SigMatches cs ins outs) : parseSignatureChars cs = some (ins, outs) := by
  obtain ⟨hins, houts, heq⟩ := h
  subst heq
  have hA : ∀ a ∈ renderSide ins, (a != '-') = true := by
    intro a ha
    exact bne_iff_ne.mpr (renderSide_no_dash hins a ha)
  have hx : (('-' : Char) != '-') = false := by decide
  obtain ⟨ht, hdw⟩ := takeWhile_middle (B := '>' :: renderSide outs) hA hx
  unfold parseSignatureChars
  rw [hdw]
  dsimp only
  rw [ht, if_pos ⟨rfl, rfl⟩, parseArgList_complete hins, parseArgList_complete houts]
  rfl

theorem parseSignatureChars_iff {cs : List Char} {ins outs : CoreDims} :
    parseSignatureChars cs = some (ins, outs) ↔ SigMatches cs ins outs :=
  ⟨parseSignatureChars_sound, parseSignatureChars_complete⟩

/-! ## Lemmas: counting `->` separators -/

theorem arrowCount_le_count (cs : List Char) : arrowCount cs ≤ cs.count '-' := by
  induction cs with
  | nil => simp [arrowCount]
  | cons c rest ih =>
    have hsplit : arrowCount (c :: rest) ≤ (if c = '-' then 1 else 0) + arrowCount rest := by
      simp only [arrowCount]
      by_cases h : c = '-' ∧ rest.head? = some '>'
      · rw [if_pos h, if_pos h.1]
      · rw [if_neg h]
        omega
    have hcount : (c :: rest).count '-' = (if c = '-' then 1 else 0) + rest.count '-' := by
      by_cases hc : c = '-'
      · subst hc
        rw [List.count_cons_self, if_pos rfl]
        omega
      · rw [List.count_cons_of_ne (fun h => hc h.symm), if_neg hc]
        omega
    omega

theorem count_dash_renderSide {side : CoreDims} (h : sideOK side = true) :
    (renderSide side).count '-' = 0 :=
  List.count_eq_zero.mpr (fun hmem => renderSide_no_dash h '-' hmem rfl)

theorem sig_count_dash {cs : List Char} {ins outs : CoreDims}
    (h : SigMatches cs ins outs) : cs.count '-' = 1 := by
  obtain ⟨hins, houts, heq⟩ := h
  subst heq
  simp [List.count_append, List.count_cons, count_dash_renderSide hins,
    count_dash_renderSide houts]

theorem count_dash_strip (cs : List Char) :
    (stripFinalNewline cs).count '-' = cs.count '-' := by
  unfold stripFinalNewline
  split
  · rename_i hl
    have hne : cs ≠ [] := by
      intro h
      subst h
      simp at hl
    have h2 := List.dropLast_append_getLast hne
    have h3 : cs.getLast hne = '\n' := by
      have := List.getLast?_eq_getLast cs hne
      rw [hl] at this
      exact (Option.some_injective _ this).symm
    conv_rhs => rw [← h2]
    rw [h3, List.count_append]
    simp
  · rfl

/-! ## Lemmas: the dimension walk -/

theorem lookupT_append (t : DimTable) (p : DimName × Nat) (m : DimName) :
    lookupT (t ++ [p]) m =
      match lookupT t m with
      | some v => some v
      | none => if p.1 = m then some p.2 else none := by
  induction t with
  | nil => simp [lookupT]
  | cons q t ih =>
    by_cases hq : q.1 = m
    · simp [lookupT, hq]
    · simp only [List.cons_append, lookupT, if_neg hq]
      exact ih

theorem firstSize_cons_none (t : DimTable) (p : DimName × Nat)
    (ps : List (DimName × Nat)) (h : lookupT t p.1 = none) (m : DimName) :
    firstSize t (p :: ps) m = firstSize (t ++ [p]) ps m := by
  unfold firstSize
  rw [lookupT_append]
  cases ht : lookupT t m with
  | some v => rfl
  | none =>
    by_cases hm : p.1 = m
    · subst hm
      simp [lookupT]
    · simp [lookupT, hm]

theorem firstSize_cons_some (t : DimTable) (p : DimName × Nat)
    (ps : List (DimName × Nat)) (v : Nat) (h : lookupT t p.1 = some v) (m : DimName) :
    firstSize t (p :: ps) m = firstSize t ps m := by
  unfold firstSize
  cases ht : lookupT t m with
  | some w => rfl
  | none =>
    by_cases hm : p.1 = m
    · subst hm
      rw [ht] at h
      exact absurd h (by simp)
    · simp [lookupT, hm]

theorem occFold_ok_iff :
    ∀ (occs : List (DimName × Nat)) (t : DimTable),
      (∃ t2, occFold occs t = .ok t2) ↔
        ∀ p ∈ occs, firstSize t occs p.1 = some p.2 := by
  intro occs
  induction occs with
  | nil =>
    intro t
    simp [occFold]
  | cons p ps ih =>
    intro t
    cases hl : lookupT t p.1 with
    | some v =>
      by_cases hv : p.2 = v
      · subst hv
        have hstep : occFold (p :: ps) t = occFold ps t := by
          simp [occFold, updateOne, hl]
        rw [hstep]
        constructor
        · intro h q hq
          rcases List.mem_cons.mp hq with h2 | h2
          · rw [h2, firstSize_cons_some t p ps p.2 hl]
            unfold firstSize
            rw [hl]
          · rw [firstSize_cons_some t p ps p.2 hl]
            exact (ih t).mp h q h2
        · intro h
          exact (ih t).mpr (fun q hq => by
            rw [← firstSize_cons_some t p ps p.2 hl]
            exact h q (List.mem_cons_of_mem p hq))
      · have hstep : occFold (p :: ps) t = .error (.inconsistentDim p.1 p.2 v) := by
          simp [occFold, updateOne, hl, hv]
        rw [hstep]
        constructor
        · intro h
          obtain ⟨t2, ht2⟩ := h
          exact absurd ht2 (by simp)
        · intro h
          have := h p (List.mem_cons_self p ps)
          unfold firstSize at this
          rw [hl] at this
          exact absurd (Option.some_injective _ this).symm hv
    | none =>
      have hstep : occFold (p :: ps) t = occFold ps (t ++ [p]) := by
        simp [occFold, updateOne, hl]
      rw [hstep]
      constructor
      · intro h q hq
        rcases List.mem_cons.mp hq with h2 | h2
        · subst h2
          unfold firstSize
          rw [hl]
          simp [lookupT]
        · rw [firstSize_cons_none t p ps hl]
          exact (ih (t ++ [p])).mp h q h2
      · intro h
        exact (ih (t ++ [p])).mpr (fun q hq => by
          rw [← firstSize_cons_none t p ps hl]
          exact h q (List.mem_cons_of_mem p hq))

theorem occFold_ok_lookup :
    ∀ (occs : List (DimName × Nat)) (t t2 : DimTable),
      occFold occs t = .ok t2 → ∀ m, lookupT t2 m = firstSize t occs m := by
  intro occs
  induction occs with
  | nil =>
    intro t t2 h m
    have : t = t2 := by simpa [occFold] using h
    subst this
    simp [firstSize, lookupT]
    cases lookupT t m <;> rfl
  | cons p ps ih =>
    intro t t2 h m
    cases hl : lookupT t p.1 with
    | some v =>
      by_cases hv : p.2 = v
      · subst hv
        rw [firstSize_cons_some t p ps p.2 hl]
        have hstep : occFold (p :: ps) t = occFold ps t := by
          simp [occFold, updateOne, hl]
        rw [hstep] at h
        exact ih t t2 h m
      · have hstep : occFold (p :: ps) t = .error (.inconsistentDim p.1 p.2 v) := by
          simp [occFold, updateOne, hl, hv]
        rw [hstep] at h
        exact absurd h (by simp)
    | none =>
      rw [firstSize_cons_none t p ps hl]
      have hstep : occFold (p :: ps) t = occFold ps (t ++ [p]) := by
        simp [occFold, updateOne, hl]
      rw [hstep] at h
      exact ih (t ++ [p]) t2 h m

theorem occFold_error :
    ∀ (occs : List (DimName × Nat)) (t : DimTable) (e : VecError),
      occFold occs t = .error e →
      ∃ n s s0, e = .inconsistentDim n s s0 ∧ (n, s) ∈ occs ∧
        firstSize t occs n = some s0 ∧ s ≠ s0 := by
  intro occs
  induction occs with
  | nil =>
    intro t e h
    simp [occFold] at h
  | cons p ps ih =>
    intro t e h
    cases hl : lookupT t p.1 with
    | some v =>
      by_cases hv : p.2 = v
      · subst hv
        have hstep : occFold (p :: ps) t = occFold ps t := by
          simp [occFold, updateOne, hl]
        rw [hstep] at h
        obtain ⟨n, s, s0, he, hmem, hfs, hne⟩ := ih t e h
        exact ⟨n, s, s0, he, List.mem_cons_of_mem p hmem,
          by rw [firstSize_cons_some t p ps p.2 hl]; exact hfs, hne⟩
      · have hstep : occFold (p :: ps) t = .error (.inconsistentDim p.1 p.2 v) := by
          simp [occFold, updateOne, hl, hv]
        rw [hstep] at h
        have he : e = .inconsistentDim p.1 p.2 v := by
          have := h.symm
          injection this
        refine ⟨p.1, p.2, v, he, List.mem_cons_self p ps, ?_, hv⟩
        unfold firstSize
        rw [hl]
    | none =>
      have hstep : occFold (p :: ps) t = occFold ps (t ++ [p]) := by
        simp [occFold, updateOne, hl]
      rw [hstep] at h
      obtain ⟨n, s, s0, he, hmem, hfs, hne⟩ := ih (t ++ [p]) e h
      exact ⟨n, s, s0, he, List.mem_cons_of_mem p hmem,
        by rw [firstSize_cons_none t p ps hl]; exact hfs, hne⟩

theorem occFold_append (a b : List (DimName × Nat)) (t : DimTable) :
    occFold (a ++ b) t =
      match occFold a t with
      | .ok t2 => occFold b t2
      | .error e => .error e := by
  induction a generalizing t with
  | nil => rfl
  | cons p ps ih =>
    simp only [List.cons_append, occFold]
    cases updateOne t p with
    | ok t2 => exact ih t2
    | error e => rfl

theorem update_eq_occFold (t : DimTable) (sh : Shape) (cds : List DimName)
    (hr : cds.length ≤ sh.length) :
    _update_dim_sizes t sh cds = occFold (cds.zip (lastN cds.length sh)) t := by
  unfold _update_dim_sizes
  by_cases hemp : cds.isEmpty
  · have hnil : cds = [] := by
      cases cds with
      | nil => rfl
      | cons a l => simp [List.isEmpty] at hemp
    rw [if_pos hemp, hnil]
    rfl
  · rw [if_neg hemp, if_neg (Nat.not_lt.mpr hr)]

theorem walkAux_ranks :
    ∀ (l : List (Shape × List DimName)) (t t2 : DimTable),
      walkAux l t = .ok t2 → ∀ p ∈ l, p.2.length ≤ p.1.length := by
  intro l
  induction l with
  | nil =>
    intro t t2 _ p hp
    simp at hp
  | cons q l ih =>
    intro t t2 h p hp
    unfold walkAux at h
    cases hu : _update_dim_sizes t q.1 q.2 with
    | error e => rw [hu] at h; exact absurd h (by simp)
    | ok t3 =>
      rw [hu] at h
      rcases List.mem_cons.mp hp with h2 | h2
      · subst h2
        unfold _update_dim_sizes at hu
        by_cases hemp : p.2.isEmpty
        · have : p.2 = [] := by
            cases hpp : p.2 with
            | nil => rfl
            | cons a m => rw [hpp] at hemp; simp [List.isEmpty] at hemp
          rw [this]
          simp
        · rw [if_neg hemp] at hu
          by_cases hlt : p.1.length < p.2.length
          · rw [if_pos hlt] at hu
            exact absurd hu (by simp)
          · exact Nat.not_lt.mp hlt
      · exact ih t3 t2 h p h2

theorem walkAux_eq_occFold :
    ∀ (l : List (Shape × List DimName)) (t : DimTable),
      (∀ p ∈ l, p.2.length ≤ p.1.length) →
      walkAux l t =
        occFold ((l.map (fun p => p.2.zip (lastN p.2.length p.1))).foldr (· ++ ·) []) t := by
  intro l
  induction l with
  | nil => intro t _; rfl
  | cons q l ih =>
    intro t hr
    simp only [walkAux, List.map_cons, List.foldr_cons]
    rw [occFold_append,
      ← update_eq_occFold t q.1 q.2 (hr q (List.mem_cons_self q l))]
    cases hu : _update_dim_sizes t q.1 q.2 with
    | ok t2 => exact ih t2 (fun p hp => hr p (List.mem_cons_of_mem q hp))
    | error e => rfl

theorem mem_foldr_append {l : List (List α)} {x : α} :
    x ∈ l.foldr (· ++ ·) [] ↔ ∃ a ∈ l, x ∈ a := by
  induction l with
  | nil => simp
  | cons a l ih =>
    simp only [List.foldr_cons, List.mem_append, ih, List.mem_cons]
    constructor
    · rintro (h | ⟨b, hb, hx⟩)
      · exact ⟨a, Or.inl rfl, h⟩
      · exact ⟨b, Or.inr hb, hx⟩
    · rintro ⟨b, hb | hb, hx⟩
      · exact Or.inl (hb ▸ hx)
      · exact Or.inr ⟨b, hb, hx⟩

theorem zip_lookup_eq {cds : List DimName} {core : Shape} {t : DimTable}
    (hlen : cds.length = core.length)
    (hall : ∀ q ∈ cds.zip core, lookupT t q.1 = some q.2) :
    core = cds.map (fun n => (lookupT t n).getD 0) := by
  induction cds generalizing core with
  | nil =>
    cases core with
    | nil => rfl
    | cons s core => simp at hlen
  | cons n cds ih =>
    cases core with
    | nil => simp at hlen
    | cons s core =>
      have h1 : lookupT t n = some s :=
        hall (n, s) (by simp [List.zip_cons_cons])
      rw [List.map_cons, ← ih (by simpa using hlen)
        (fun q hq => hall q (by simp [List.zip_cons_cons]; exact Or.inr hq))]
      rw [h1]
      rfl

theorem lastN_length {k : Nat} {s : Shape} (h : k ≤ s.length) :
    (lastN k s).length = k := by
  simp [lastN, List.length_drop]
  omega

theorem walk_core_shapes {shapes : List Shape} {icd : CoreDims} {t : DimTable}
    (h : walkAux (shapes.zip icd) [] = .ok t) :
    ∀ p ∈ shapes.zip icd,
      lastN p.2.length p.1 = coreShapeOf t p.2 ∧ p.2.length ≤ p.1.length := by
  have hr := walkAux_ranks (shapes.zip icd) [] t h
  have heq := walkAux_eq_occFold (shapes.zip icd) [] hr
  rw [heq] at h
  have hok : ∀ q ∈ occsOf shapes icd, firstSize [] (occsOf shapes icd) q.1 = some q.2 :=
    (occFold_ok_iff (occsOf shapes icd) []).mp ⟨t, h⟩
  have hlook := occFold_ok_lookup (occsOf shapes icd) [] t h
  intro p hp
  refine ⟨?_, hr p hp⟩
  have hsub : ∀ q ∈ p.2.zip (lastN p.2.length p.1), lookupT t q.1 = some q.2 := by
    intro q hq
    have hmem : q ∈ occsOf shapes icd := by
      unfold occsOf
      exact mem_foldr_append.mpr ⟨p.2.zip (lastN p.2.length p.1),
        List.mem_map.mpr ⟨p, hp, rfl⟩, hq⟩
    rw [hlook q.1, hok q hmem]
  exact zip_lookup_eq (lastN_length (hr p hp)).symm hsub

/-! ## Lemmas: broadcasting -/

theorem get?_zero_eq_head (l : List α) : l.get? 0 = l.head? := by
  cases l <;> rfl

theorem get?_tail_succ (l : List α) (i : Nat) : l.tail.get? i = l.get? (i + 1) := by
  cases l <;> rfl

theorem foldDim_eq_some :
    ∀ (ds : List Nat) (a r : Nat),
      foldDim ds a = some r ↔
        ((∀ d ∈ ds, d = 1 ∨ d = r) ∧ (r = a ∨ (a = 1 ∧ r ∈ ds ∧ r ≠ 1))) := by
  intro ds
  induction ds with
  | nil =>
    intro a r
    constructor
    · intro h
      have h2 : a = r := by simpa [foldDim] using h
      subst h2
      exact ⟨by simp, Or.inl rfl⟩
    · rintro ⟨_, h2 | ⟨_, h3, _⟩⟩
      · subst h2; rfl
      · simp at h3
  | cons d ds ih =>
    intro a r
    simp only [foldDim]
    by_cases hd : d = 1
    · subst hd
      have hb : broadcastDim a 1 = some a := by simp [broadcastDim]
      simp only [hb]
      rw [ih a r]
      constructor
      · rintro ⟨h1, h2⟩
        refine ⟨?_, ?_⟩
        · intro x hx
          rcases List.mem_cons.mp hx with h3 | h3
          · exact Or.inl h3
          · exact h1 x h3
        · rcases h2 with h2 | ⟨ha, hr, hne⟩
          · exact Or.inl h2
          · exact Or.inr ⟨ha, List.mem_cons_of_mem _ hr, hne⟩
      · rintro ⟨h1, h2⟩
        refine ⟨fun x hx => h1 x (List.mem_cons_of_mem _ hx), ?_⟩
        rcases h2 with h2 | ⟨ha, hr, hne⟩
        · exact Or.inl h2
        · rcases List.mem_cons.mp hr with h3 | h3
          · exact absurd h3 hne
          · exact Or.inr ⟨ha, h3, hne⟩
    · by_cases ha : a = 1
      · subst ha
        have hb : broadcastDim 1 d = some d := by simp [broadcastDim, hd]
        simp only [hb]
        rw [ih d r]
        constructor
        · rintro ⟨h1, h2⟩
          have hrd : r = d := by
            rcases h2 with h2 | ⟨hd1, _, _⟩
            · exact h2
            · exact absurd hd1 hd
          constructor
          · intro x hx
            rcases List.mem_cons.mp hx with h3 | h3
            · exact Or.inr (h3.trans hrd.symm)
            · exact h1 x h3
          · refine Or.inr ⟨by trivial, ?_, ?_⟩
            · rw [hrd]
              exact List.mem_cons_self d ds
            · rw [hrd]
              exact hd
        · rintro ⟨h1, h2⟩
          have hdr : d = r := by
            rcases h1 d (List.mem_cons_self d ds) with h3 | h3
            · exact absurd h3 hd
            · exact h3
          subst hdr
          exact ⟨fun x hx => h1 x (List.mem_cons_of_mem d hx), Or.inl rfl⟩
      · by_cases had : a = d
        · have hb : broadcastDim a d = some a := by
            simp [broadcastDim, hd, had]
          simp only [hb]
          rw [ih a r]
          constructor
          · rintro ⟨h1, h2⟩
            have hra : r = a := by
              rcases h2 with h2 | ⟨h3, _, _⟩
              · exact h2
              · exact absurd h3 ha
            subst hra
            refine ⟨?_, Or.inl rfl⟩
            intro x hx
            rcases List.mem_cons.mp hx with h3 | h3
            · exact Or.inr (h3.trans had.symm)
            · exact h1 x h3
          · rintro ⟨h1, h2⟩
            have hra : r = a := by
              rcases h2 with h2 | ⟨h3, _, _⟩
              · exact h2
              · exact absurd h3 ha
            subst hra
            exact ⟨fun x hx => h1 x (List.mem_cons_of_mem _ hx), Or.inl rfl⟩
        · have hb : broadcastDim a d = none := by
            simp [broadcastDim, hd, ha, had]
          simp only [hb]
          constructor
          · intro h
            exact absurd h (by simp)
          · rintro ⟨h1, h2⟩
            have hra : r = a := by
              rcases h2 with h2 | ⟨h3, _, _⟩
              · exact h2
              · exact absurd h3 ha
            rcases h1 d (List.mem_cons_self d ds) with h3 | h3
            · exact absurd h3 hd
            · exact absurd (h3.trans hra).symm had

theorem bshapeAux_some_iff :
    ∀ (L : Nat) (rs : List (List Nat)) (r : List Nat),
      (∀ s ∈ rs, s.length ≤ L) →
      (bshapeAux L rs = some r ↔
        (r.length = L ∧
         (∀ s ∈ rs, ∀ i d, s.get? i = some d → d = 1 ∨ r.get? i = some d) ∧
         (∀ i d, r.get? i = some d → d = 1 ∨ ∃ s ∈ rs, s.get? i = some d))) := by
  intro L
  induction L with
  | zero =>
    intro rs r hlen
    constructor
    · intro h
      have hr : r = [] := by simpa [bshapeAux] using h
      subst hr
      refine ⟨rfl, ?_, ?_⟩
      · intro s hs i d hget
        have hs0 : s = [] := List.length_eq_zero.mp (Nat.le_zero.mp (hlen s hs))
        subst hs0
        simp at hget
      · intro i d hget
        simp at hget
    · rintro ⟨h1, _, _⟩
      have hr : r = [] := List.length_eq_zero.mp h1
      subst hr
      simp [bshapeAux]
  | succ L ih =>
    intro rs r hlen
    have htails : ∀ s ∈ rs.map List.tail, s.length ≤ L := by
      intro s hs
      obtain ⟨s0, hs0, he⟩ := List.mem_map.mp hs
      subst he
      have := hlen s0 hs0
      cases s0 with
      | nil => simp
      | cons x xs => simpa using this
    constructor
    · intro h
      simp only [bshapeAux, Option.bind_eq_bind, Option.bind_eq_some] at h
      obtain ⟨d0, hd0, rest, hrest, heq⟩ := h
      have heq2 : d0 :: rest = r := by simpa using heq
      subst heq2
      have hfold := (foldDim_eq_some (rs.filterMap List.head?) 1 d0).mp hd0
      have hrest2 := (ih (rs.map List.tail) rest htails).mp hrest
      refine ⟨by simp [hrest2.1], ?_, ?_⟩
      · intro s hs i d hget
        cases i with
        | zero =>
          have hd : d ∈ rs.filterMap List.head? := by
            refine List.mem_filterMap.mpr ⟨s, hs, ?_⟩
            rw [← get?_zero_eq_head]
            exact hget
          rcases hfold.1 d hd with h1 | h1
          · exact Or.inl h1
          · exact Or.inr (by rw [h1]; rfl)
        | succ i =>
          have hget2 : s.tail.get? i = some d := by
            rw [get?_tail_succ]
            exact hget
          rcases hrest2.2.1 s.tail (List.mem_map.mpr ⟨s, hs, rfl⟩) i d hget2 with h1 | h1
          · exact Or.inl h1
          · exact Or.inr h1
      · intro i d hget
        cases i with
        | zero =>
          have hd : d0 = d := by simpa using hget
          subst hd
          rcases hfold.2 with h1 | ⟨_, h2, _⟩
          · exact Or.inl h1
          · obtain ⟨s, hs, hhead⟩ := List.mem_filterMap.mp h2
            exact Or.inr ⟨s, hs, by rw [get?_zero_eq_head]; exact hhead⟩
        | succ i =>
          have hget2 : rest.get? i = some d := hget
          rcases hrest2.2.2 i d hget2 with h1 | ⟨s, hs, hsget⟩
          · exact Or.inl h1
          · obtain ⟨s0, hs0, he⟩ := List.mem_map.mp hs
            subst he
            exact Or.inr ⟨s0, hs0, by rw [← get?_tail_succ]; exact hsget⟩
    · rintro ⟨h1, h2, h3⟩
      cases r with
      | nil => simp at h1
      | cons d0 rest =>
        have hrlen : rest.length = L := by simpa using h1
        have hfold : foldDim (rs.filterMap List.head?) 1 = some d0 := by
          rw [foldDim_eq_some]
          constructor
          · intro d hd
            obtain ⟨s, hs, hhead⟩ := List.mem_filterMap.mp hd
            have hget : s.get? 0 = some d := by
              rw [get?_zero_eq_head]
              exact hhead
            rcases h2 s hs 0 d hget with hx | hx
            · exact Or.inl hx
            · have hxd : d0 = d := by simpa using hx
              exact Or.inr hxd.symm
          · by_cases hd1 : d0 = 1
            · exact Or.inl hd1
            · refine Or.inr ⟨rfl, ?_, hd1⟩
              rcases h3 0 d0 rfl with hx | ⟨s, hs, hsget⟩
              · exact absurd hx hd1
              · exact List.mem_filterMap.mpr ⟨s, hs, by
                  rw [← get?_zero_eq_head]
                  exact hsget⟩
        have hrest : bshapeAux L (rs.map List.tail) = some rest := by
          rw [ih (rs.map List.tail) rest htails]
          refine ⟨hrlen, ?_, ?_⟩
          · intro s hs i d hget
            obtain ⟨s0, hs0, he⟩ := List.mem_map.mp hs
            subst he
            have hget2 : s0.get? (i + 1) = some d := by
              rw [← get?_tail_succ]
              exact hget
            rcases h2 s0 hs0 (i + 1) d hget2 with hx | hx
            · exact Or.inl hx
            · exact Or.inr hx
          · intro i d hget
            rcases h3 (i + 1) d hget with hx | ⟨s, hs, hsget⟩
            · exact Or.inl hx
            · exact Or.inr ⟨s.tail, List.mem_map.mpr ⟨s, hs, rfl⟩, by
                rw [get?_tail_succ]
                exact hsget⟩
        simp only [bshapeAux, Option.bind_eq_bind, Option.bind_eq_some]
        exact ⟨d0, hfold, rest, hrest, rfl⟩

theorem maxLen_mem {shapes : List Shape} {s : Shape} (h : s ∈ shapes) :
    s.length ≤ maxLen shapes := by
  induction shapes with
  | nil => simp at h
  | cons a l ih =>
    rcases List.mem_cons.mp h with h2 | h2
    · subst h2
      exact le_max_left _ _
    · exact (ih h2).trans (le_max_right _ _)

theorem broadcastShapes_some_iff {shapes : List Shape} {r : Shape} :
    broadcastShapes shapes = some r ↔ IsBroadcastResult shapes r := by
  have hlen : ∀ s ∈ shapes.map List.reverse, s.length ≤ maxLen shapes := by
    intro s hs
    obtain ⟨s0, hs0, he⟩ := List.mem_map.mp hs
    subst he
    simpa using maxLen_mem hs0
  have hiff := bshapeAux_some_iff (maxLen shapes) (shapes.map List.reverse) r.reverse hlen
  constructor
  · intro h
    obtain ⟨rR, hrR, he⟩ := Option.map_eq_some'.mp h
    have heR : rR = r.reverse := by rw [← he, List.reverse_reverse]
    subst heR
    have hchar := hiff.mp hrR
    refine ⟨by simpa using hchar.1, ?_, ?_⟩
    · intro s hs i d hget
      rcases hchar.2.1 s.reverse (List.mem_map.mpr ⟨s, hs, rfl⟩) i d hget with h1 | h1
      · exact Or.inl h1
      · exact Or.inr h1
    · intro i d hget
      rcases hchar.2.2 i d hget with h1 | ⟨sR, hsR, hsget⟩
      · exact Or.inl h1
      · obtain ⟨s, hs, he2⟩ := List.mem_map.mp hsR
        subst he2
        exact Or.inr ⟨s, hs, hsget⟩
  · rintro ⟨h1, h2, h3⟩
    have hb : bshapeAux (maxLen shapes) (shapes.map List.reverse) = some r.reverse := by
      rw [hiff]
      refine ⟨by simpa using h1, ?_, ?_⟩
      · intro sR hsR i d hget
        obtain ⟨s, hs, he⟩ := List.mem_map.mp hsR
        subst he
        exact h2 s hs i d hget
      · intro i d hget
        rcases h3 i d hget with hx | ⟨s, hs, hsget⟩
        · exact Or.inl hx
        · exact Or.inr ⟨s.reverse, List.mem_map.mpr ⟨s, hs, rfl⟩, hsget⟩
    unfold broadcastShapes
    rw [hb]
    simp

theorem broadcastShapes_none_iff {shapes : List Shape} :
    broadcastShapes shapes = none ↔ ¬ ∃ r, IsBroadcastResult shapes r := by
  constructor
  · rintro h ⟨r, hr⟩
    rw [← broadcastShapes_some_iff] at hr
    rw [h] at hr
    exact absurd hr (by simp)
  · intro h
    cases hb : broadcastShapes shapes with
    | none => rfl
    | some r => exact absurd ⟨r, broadcastShapes_some_iff.mp hb⟩ h

theorem compatR_of_pointwise :
    ∀ (sR rR : List Nat), sR.length ≤ rR.length →
      (∀ i d, sR.get? i = some d → d = 1 ∨ rR.get? i = some d) →
      compatR sR rR = true := by
  intro sR
  induction sR with
  | nil => intro rR _ _; rfl
  | cons s ss ih =>
    intro rR hlen hpt
    cases rR with
    | nil => simp at hlen
    | cons t ts =>
      simp only [compatR, Bool.and_eq_true, Bool.or_eq_true, beq_iff_eq]
      constructor
      · rcases hpt 0 s rfl with h | h
        · exact Or.inr h
        · have ht : t = s := by simpa using h
          exact Or.inl ht.symm
      · refine ih ts (by simpa using hlen) (fun i d hget => ?_)
        rcases hpt (i + 1) d hget with h | h
        · exact Or.inl h
        · exact Or.inr h

theorem broadcastShapes_compat {shapes : List Shape} {r : Shape}
    (h : broadcastShapes shapes = some r) :
    ∀ s ∈ shapes, compatR s.reverse r.reverse = true := by
  have hc := broadcastShapes_some_iff.mp h
  intro s hs
  apply compatR_of_pointwise
  · simp only [List.length_reverse]
    rw [hc.1]
    exact maxLen_mem hs
  · intro i d hget
    exact hc.2.1 s hs i d hget

theorem compatR_append_left :
    ∀ (c s t : List Nat), compatR s t = true → compatR (c ++ s) (c ++ t) = true := by
  intro c
  induction c with
  | nil => intro s t h; exact h
  | cons x c ih =>
    intro s t h
    simp only [List.cons_append, compatR, Bool.and_eq_true, Bool.or_eq_true, beq_iff_eq]
    exact ⟨Or.inl trivial, ih s t h⟩

/-! ## Lemmas: the batching primitive -/

theorem range_map_getD (l : List β) (g : β → γ) (d : β) :
    (List.range l.length).map (fun j => g (l.getD j d)) = l.map g := by
  induction l with
  | nil => rfl
  | cons a l ih =>
    rw [List.length_cons, List.range_succ_eq_map, List.map_cons, List.map_map,
      List.map_cons]
    congr 1

theorem map_range_getD {n j : Nat} (g : Nat → γ) (d : γ) (h : j < n) :
    ((List.range n).map g).getD j d = g j := by
  have h1 : ((List.range n).map g).get? j = some (g j) := by
    rw [List.get?_map, List.get?_range h]
    rfl
  rw [List.getD_eq_get?, h1]
  rfl

theorem sliceAll_shapes [Inhabited α] {args : List (NDArray α)} {inS : List Shape}
    {b : Nat} (hargs : args.map NDArray.shape = inS.map (b :: ·)) (i : Nat) :
    (sliceAll args i).map NDArray.shape = inS := by
  have h1 : (sliceAll args i).map NDArray.shape =
      (args.map NDArray.shape).map List.tail := by
    simp [sliceAll, sliceHead, List.map_map, Function.comp]
  rw [h1, hargs, List.map_map]
  have h2 : (List.tail ∘ fun s => b :: s) = id := rfl
  rw [h2, List.map_id]

theorem vmap_shaped [Inhabited α] {f : Func α} {inS outS : List Shape} {sng : Bool}
    (hf : ShapedFn f inS outS sng) (hne : inS ≠ []) (b : Nat) :
    ShapedFn (vmap f) (inS.map (b :: ·)) (outS.map (b :: ·)) sng := by
  intro args hargs
  have hB : (args.headD default).shape.headD 0 = b := by
    cases args with
    | nil =>
      cases inS with
      | nil => exact absurd rfl hne
      | cons s inS2 => simp at hargs
    | cons a args2 =>
      cases inS with
      | nil => simp at hargs
      | cons s inS2 =>
        simp only [List.map_cons, List.cons.injEq] at hargs
        simp [hargs.1]
  have hslice : ∀ i, (sliceAll args i).map NDArray.shape = inS :=
    fun i => sliceAll_shapes hargs i
  have hproto := hf (sliceAll args 0) (hslice 0)
  constructor
  · cases hp : f (sliceAll args 0) with
    | single p =>
      rw [hp] at hproto
      simp only [vmap, hp, Result.toList, List.map_cons, List.map_nil]
      rw [hB, ← hproto.1]
      rfl
    | tuple ps =>
      rw [hp] at hproto
      simp only [vmap, hp, Result.toList]
      rw [List.map_map]
      show (List.range ps.length).map
          (fun j => (args.headD default).shape.headD 0 :: (ps.getD j default).shape) =
        outS.map (b :: ·)
      rw [range_map_getD ps (fun x => (args.headD default).shape.headD 0 :: x.shape) default,
        hB, ← hproto.1, List.map_map]
      rfl
  · cases hp : f (sliceAll args 0) with
    | single p =>
      rw [hp] at hproto
      simp only [vmap, hp, Result.isSingle]
      exact hproto.2
    | tuple ps =>
      rw [hp] at hproto
      simp only [vmap, hp, Result.isSingle]
      exact hproto.2

theorem vmapIter_shaped [Inhabited α] {f : Func α} {inS outS : List Shape} {sng : Bool}
    (hf : ShapedFn f inS outS sng) (hne : inS ≠ []) :
    ∀ (P : List Nat),
      ShapedFn (vmapIter P.length f) (inS.map (P ++ ·)) (outS.map (P ++ ·)) sng := by
  intro P
  induction P with
  | nil =>
    have h1 : inS.map (([] : List Nat) ++ ·) = inS := by simp
    have h2 : outS.map (([] : List Nat) ++ ·) = outS := by simp
    rw [h1, h2]
    exact hf
  | cons b P ih =>
    have h2 := vmap_shaped ih (by simpa using hne) b
    have he1 : (inS.map (P ++ ·)).map (b :: ·) = inS.map ((b :: P) ++ ·) := by
      rw [List.map_map]
      rfl
    have he2 : (outS.map (P ++ ·)).map (b :: ·) = outS.map ((b :: P) ++ ·) := by
      rw [List.map_map]
      rfl
    rw [he1, he2] at h2
    exact h2

theorem vmap_toList_length [Inhabited α] (f : Func α) (args : List (NDArray α)) :
    (vmap f args).toList.length = (f (sliceAll args 0)).toList.length := by
  cases hp : f (sliceAll args 0) with
  | single p => simp [vmap, hp, Result.toList]
  | tuple ps => simp [vmap, hp, Result.toList]

theorem vmapIter_uniform [Inhabited α] {f : Func α} {m : Nat} (hu : UniformFn f m) :
    ∀ n, UniformFn (vmapIter n f) m := by
  intro n
  induction n with
  | zero => exact hu
  | succ n ih =>
    intro args
    rw [show vmapIter (n + 1) f = vmap (vmapIter n f) from rfl, vmap_toList_length]
    exact ih _

theorem vmap_nth_data [Inhabited α] (f : Func α) (args : List (NDArray α))
    (j : Nat) (hj : j < (f (sliceAll args 0)).toList.length) (i : Nat)
    (rest : List Nat) :
    ((vmap f args).nth j).data (i :: rest) = ((f (sliceAll args i)).nth j).data rest := by
  cases hp : f (sliceAll args 0) with
  | single p =>
    rw [hp] at hj
    simp only [Result.toList, List.length_singleton] at hj
    have hj0 : j = 0 := Nat.lt_one_iff.mp hj
    subst hj0
    simp only [vmap, hp, Result.nth, Result.toList]
    rfl
  | tuple ps =>
    rw [hp] at hj
    simp only [Result.toList] at hj
    simp only [vmap, hp, Result.nth, Result.toList]
    rw [map_range_getD _ default hj]
    rfl

theorem vmapIter_nth_data [Inhabited α] {f : Func α} {m : Nat} (hu : UniformFn f m) :
    ∀ (bidx : List Nat) (args : List (NDArray α)) (j : Nat), j < m →
      ∀ (rest : List Nat),
        ((vmapIter bidx.length f args).nth j).data (bidx ++ rest) =
          ((f (multiSlice args bidx)).nth j).data rest := by
  intro bidx
  induction bidx with
  | nil => intro args j hj rest; rfl
  | cons i bidx ih =>
    intro args j hj rest
    have hlen : j < ((vmapIter bidx.length f) (sliceAll args 0)).toList.length := by
      rw [vmapIter_uniform hu bidx.length (sliceAll args 0)]
      exact hj
    rw [show ((i :: bidx) ++ rest) = i :: (bidx ++ rest) from rfl]
    rw [show vmapIter (i :: bidx).length f args = vmap (vmapIter bidx.length f) args
      from rfl]
    rw [vmap_nth_data (vmapIter bidx.length f) args j hlen i (bidx ++ rest)]
    rw [ih (sliceAll args i) j hj rest]
    rfl

/-! ## Lemmas: the wrapper pipeline -/

theorem parse_input_ok_parts {shapes : List Shape} {icd : CoreDims} {P : Shape}
    {t : DimTable} (h : _parse_input_dimensions shapes icd = .ok (P, t)) :
    walkAux (shapes.zip icd) [] = .ok t ∧
      broadcastShapes (batchShapes shapes icd) = some P := by
  unfold _parse_input_dimensions at h
  cases hw : walkAux (shapes.zip icd) [] with
  | error e => rw [hw] at h; exact absurd h (by simp)
  | ok t2 =>
    rw [hw] at h
    cases hb : broadcastShapes (batchShapes shapes icd) with
    | none => rw [hb] at h; exact absurd h (by simp)
    | some b =>
      rw [hb] at h
      have h2 : (b, t2) = (P, t) := by simpa using h
      injection h2 with h3 h4
      subst h3
      subst h4
      exact ⟨rfl, rfl⟩

theorem bcastArgs_ok [Inhabited α] :
    ∀ (args : List (NDArray α)) (shapes : List Shape),
      args.length = shapes.length →
      (∀ p ∈ args.zip shapes, compatR p.1.shape.reverse p.2.reverse = true) →
      ∃ bargs, bcastArgs args shapes = .ok bargs ∧ bargs.map NDArray.shape = shapes := by
  intro args
  induction args with
  | nil =>
    intro shapes hlen _
    cases shapes with
    | nil => exact ⟨[], rfl, rfl⟩
    | cons s ss => simp at hlen
  | cons a args ih =>
    intro shapes hlen hc
    cases shapes with
    | nil => simp at hlen
    | cons s ss =>
      have hzip : (a :: args).zip (s :: ss) = (a, s) :: args.zip ss := rfl
      rw [hzip] at hc
      have hca : compatR a.shape.reverse s.reverse = true :=
        hc (a, s) (List.mem_cons_self _ _)
      obtain ⟨bs, hbs, hshapes⟩ := ih ss (by simpa using hlen)
        (fun p hp => hc p (List.mem_cons_of_mem _ hp))
      refine ⟨⟨s, fun idx => a.data (bcastIdx a.shape s idx)⟩ :: bs, ?_, ?_⟩
      · simp only [bcastArgs, broadcast_to, if_pos hca, hbs]
      · simp [hshapes]

theorem wrapper_success [Inhabited α] {func : Func α} {icd ocd : CoreDims}
    {args : List (NDArray α)} {P : Shape} {t : DimTable} {outS : List Shape}
    {sng : Bool} (hicd : icd ≠ []) (hlen : args.length = icd.length)
    (hres : _parse_input_dimensions (args.map NDArray.shape) icd = .ok (P, t))
    (hfunc : ShapedFn func (icd.map (coreShapeOf t)) outS sng) :
    ∃ bargs, bcastArgs args (_calculate_shapes P t icd) = .ok bargs ∧
      wrapper func icd ocd args none = .ok (vmapIter P.length func bargs) ∧
      bargs.map NDArray.shape = icd.map (fun cds => P ++ coreShapeOf t cds) ∧
      (vmapIter P.length func bargs).toList.map NDArray.shape = outS.map (P ++ ·) ∧
      (vmapIter P.length func bargs).isSingle = sng := by
  obtain ⟨hw, hb⟩ := parse_input_ok_parts hres
  have hcore := walk_core_shapes hw
  have hcompat : ∀ p ∈ args.zip (_calculate_shapes P t icd),
      compatR p.1.shape.reverse p.2.reverse = true := by
    intro p hp
    rw [show _calculate_shapes P t icd = icd.map (fun cds => P ++ coreShapeOf t cds)
      from rfl, List.zip_map_right] at hp
    obtain ⟨q, hq, he⟩ := List.mem_map.mp hp
    subst he
    have hq2 : (q.1.shape, q.2) ∈ (args.map NDArray.shape).zip icd := by
      rw [List.zip_map_left]
      exact List.mem_map.mpr ⟨q, hq, rfl⟩
    obtain ⟨hcs, hrk⟩ := hcore (q.1.shape, q.2) hq2
    have hdecomp : q.1.shape = batchPart q.1.shape q.2 ++ coreShapeOf t q.2 := by
      conv_lhs => rw [← List.take_append_drop (q.1.shape.length - q.2.length) q.1.shape]
      rw [show batchPart q.1.shape q.2 =
        q.1.shape.take (q.1.shape.length - q.2.length) from rfl]
      rw [← hcs]
      rfl
    have hmem : batchPart q.1.shape q.2 ∈ batchShapes (args.map NDArray.shape) icd := by
      unfold batchShapes
      exact List.mem_map.mpr ⟨(q.1.shape, q.2), hq2, rfl⟩
    have hpc := broadcastShapes_compat hb _ hmem
    show compatR q.1.shape.reverse (P ++ coreShapeOf t q.2).reverse = true
    rw [hdecomp, List.reverse_append, List.reverse_append]
    exact compatR_append_left _ _ _ hpc
  have hlen2 : args.length = (_calculate_shapes P t icd).length := by
    simp [_calculate_shapes, hlen]
  obtain ⟨bargs, hbargs, hbshapes⟩ := bcastArgs_ok args _ hlen2 hcompat
  have hbwcd : broadcast_with_core_dims args icd ocd = .ok bargs := by
    unfold broadcast_with_core_dims
    rw [if_neg (by simp [hlen]), hres]
    exact hbargs
  have hnb : (bargs.headD default).shape.length - (icd.headD []).length = P.length := by
    cases icd with
    | nil => exact absurd rfl hicd
    | cons cds icd2 =>
      cases bargs with
      | nil => simp [_calculate_shapes] at hbshapes
      | cons b0 brest =>
        have h1 : b0.shape = P ++ coreShapeOf t cds := by
          simp only [_calculate_shapes, List.map_cons, List.cons.injEq] at hbshapes
          exact hbshapes.1
        simp only [List.headD_cons, h1, List.length_append, coreShapeOf,
          List.length_map]
        omega
  have hbshapes2 : bargs.map NDArray.shape = (icd.map (coreShapeOf t)).map (P ++ ·) := by
    rw [hbshapes, List.map_map]
    rfl
  have hicd2 : icd.map (coreShapeOf t) ≠ [] := by
    simpa using hicd
  have hres2 := vmapIter_shaped hfunc hicd2 P bargs hbshapes2
  refine ⟨bargs, hbargs, ?_, ?_, ?_, hres2.2⟩
  · unfold wrapper
    dsimp only
    rw [hbwcd]
    dsimp only
    rw [hnb]
  · rw [hbshapes]
    rfl
  · exact hres2.1

theorem firstSize_nil (occs : List (DimName × Nat)) (n : DimName) :
    firstSize [] occs n = lookupT occs n := rfl

theorem sideOK_ne_nil {side : CoreDims} (h : sideOK side = true) : side ≠ [] := by
  intro he
  subst he
  simp [sideOK] at h

theorem parse_sides_nonempty {s : String} {ins outs : CoreDims}
    (h : _parse_gufunc_signature s = some (ins, outs)) : ins ≠ [] ∧ outs ≠ [] := by
  have hm := parseSignatureChars_sound h
  exact ⟨sideOK_ne_nil hm.1, sideOK_ne_nil hm.2.1⟩

theorem wrapper_none_ok_inv [Inhabited α] {func : Func α} {icd ocd : CoreDims}
    {args : List (NDArray α)} {res : Result α}
    (h : wrapper func icd ocd args none = .ok res) :
    ∃ bargs, broadcast_with_core_dims args icd ocd = .ok bargs ∧
      res = vmapIter ((bargs.headD default).shape.length - (icd.headD []).length)
        func bargs := by
  unfold wrapper at h
  dsimp only at h
  cases hb : broadcast_with_core_dims args icd ocd with
  | error e => rw [hb] at h; exact absurd h (by simp)
  | ok bargs =>
    rw [hb] at h
    dsimp only at h
    refine ⟨bargs, rfl, ?_⟩
    have h2 := h.symm
    injection h2

/-! ## Claim theorems -/

/-- C1: the claim says an explicit-axis call fails with AxisNotSupported
iff the number of distinct core-dimension names across the whole signature
is not exactly one.  The code instead tests the length of the LAST
core-dimension tuple iterated (a loop-variable leak: `len(core_dims)`
where `len(all_core_dims)` was intended).  At `(n),(m)->(n)` — two
distinct names — the check passes and the axis call goes through; at
`(n)->(n,n)` — one distinct name — the check raises. -/
theorem c1_axis_check_code_bug :
    verify_axis_is_supported [[['n']], [['m']]] [[['n']]] = .ok () ∧
    (allCoreDimNames [[['n']], [['m']]] [[['n']]]).length = 2 ∧
    verify_axis_is_supported [[['n']]] [[['n'], ['n']]] = .error .axisNotSupported ∧
    (allCoreDimNames [[['n']]] [[['n'], ['n']]]).length = 1 ∧
    errOf (wrapper (fun args => Result.single (args.headD default))
        [[['n']], [['m']]] [[['n']]]
        [⟨[3], fun _ => (0 : Int)⟩, ⟨[4], fun _ => 0⟩] (some 0)) = none := by
  refine ⟨rfl, by decide, rfl, by decide, rfl⟩

/-- C2 counterexample: with signature `(n),(n)->()` and argument shapes
`(3,)` and `(4,)`, both non-core prefixes are empty and broadcast to the
empty prefix, and the core function returns a correctly-shaped scalar for
the single declared output group, yet the wrapped call does not succeed —
it fails with InconsistentDimension.  The claim as stated omits the
dimension-consistency precondition. -/
theorem c2_counterexample :
    broadcastShapes (batchShapes [[3], [4]] [[['n']], [['n']]]) = some [] ∧
    (∀ args : List (NDArray Int),
      ((fun _ => Result.single ⟨[], fun _ => (0 : Int)⟩ : Func Int) args).toList.map
          NDArray.shape = [[]] ∧
      ((fun _ => Result.single ⟨[], fun _ => (0 : Int)⟩ : Func Int) args).isSingle =
        true) ∧
    errOf (wrapper (fun _ => Result.single ⟨[], fun _ => (0 : Int)⟩)
        [[['n']], [['n']]] [[]] [⟨[3], fun _ => 0⟩, ⟨[4], fun _ => 0⟩] none) =
      some (.inconsistentDim ['n'] 4 3) := by
  refine ⟨by decide, fun args => ⟨rfl, rfl⟩, by decide⟩

/-- C2 (amended): for a wrapped function over a parsed signature, on
arguments of the declared arity whose ranks and named core dimensions
resolve consistently and whose non-core prefix shapes broadcast to a
common shape `P`, and whose core function returns one correctly-shaped
array per declared output group (bare iff one group), the call succeeds;
each output has shape `P` followed by that output's core shape, there is
exactly one output per declared group, the result is a bare array iff the
signature declares exactly one output group, and `P` is the standard
right-aligned broadcast of the prefixes. -/
theorem c2_amended_shapes {α : Type} [Inhabited α] {s : String}
    {icd ocd : CoreDims} {func : Func α} {args : List (NDArray α)} {P : Shape}
    {t : DimTable} {outS : List Shape}
    (hsig : _parse_gufunc_signature s = some (icd, ocd))
    (hlen : args.length = icd.length)
    (hres : _parse_input_dimensions (args.map NDArray.shape) icd = .ok (P, t))
    (hout : outS.length = ocd.length)
    (hfunc : ShapedFn func (icd.map (coreShapeOf t)) outS (ocd.length == 1)) :
    ∃ res, wrapper func icd ocd args none = .ok res ∧
      res.toList.map NDArray.shape = outS.map (P ++ ·) ∧
      res.toList.length = ocd.length ∧
      res.isSingle = (ocd.length == 1) ∧
      IsBroadcastResult (batchShapes (args.map NDArray.shape) icd) P := by
  have hicd : icd ≠ [] := (parse_sides_nonempty hsig).1
  obtain ⟨bargs, hbargs, hwrap, hbsh, hshapes, hsng⟩ :=
    wrapper_success hicd hlen hres hfunc
  refine ⟨_, hwrap, hshapes, ?_, hsng, ?_⟩
  · have h2 := congrArg List.length hshapes
    simpa [hout] using h2
  · exact broadcastShapes_some_iff.mp (parse_input_ok_parts hres).2

/-- Witness for C2: the amended theorem applied to `(n)->()` with a scalar
core function on one argument of shape `(2, 3)`. -/
theorem c2_witness :
    ∃ res, wrapper (fun _ => Result.single ⟨[], fun _ => (0 : Int)⟩)
        [[['n']]] [[]] [⟨[2, 3], fun _ => 0⟩] none = .ok res ∧
      res.toList.map NDArray.shape = ([[]] : List Shape).map ([2] ++ ·) ∧
      res.toList.length = ([[]] : CoreDims).length ∧
      res.isSingle = (([[]] : CoreDims).length == 1) ∧
      IsBroadcastResult (batchShapes
        (([⟨[2, 3], fun _ => 0⟩] : List (NDArray Int)).map NDArray.shape)
        [[['n']]]) [2] :=
  c2_amended_shapes
    (show _parse_gufunc_signature "(n)->()" = some ([[['n']]], [[]]) from rfl)
    rfl
    (show _parse_input_dimensions _ [[['n']]] = .ok ([2], [(['n'], 3)]) from rfl)
    rfl
    (fun args _ => ⟨rfl, rfl⟩)

/-- C3: every successful axis-free call factors through broadcasting
followed by `num_batch_dims` layers of the batching primitive; the result
at every combination of leading indices equals the core function applied
to the core-dimension slices of the broadcast inputs at those indices, and
with `num_batch_dims = 0` the result is the direct call of the core
function on the broadcast arguments with no batching wrapper. -/
theorem c3_batching_nested_loop {α : Type} [Inhabited α] {func : Func α} {m : Nat}
    {icd ocd : CoreDims} {args : List (NDArray α)} {res : Result α}
    (hu : UniformFn func m)
    (h : wrapper func icd ocd args none = .ok res) :
    ∃ bargs, broadcast_with_core_dims args icd ocd = .ok bargs ∧
      res = vmapIter ((bargs.headD default).shape.length - (icd.headD []).length)
        func bargs ∧
      (∀ bidx : List Nat,
        bidx.length = (bargs.headD default).shape.length - (icd.headD []).length →
        ∀ j, j < m → ∀ rest : List Nat,
          (res.nth j).data (bidx ++ rest) =
            ((func (multiSlice bargs bidx)).nth j).data rest) ∧
      ((bargs.headD default).shape.length - (icd.headD []).length = 0 →
        res = func bargs) := by
  obtain ⟨bargs, hb, hres⟩ := wrapper_none_ok_inv h
  refine ⟨bargs, hb, hres, ?_, ?_⟩
  · intro bidx hbidx j hj rest
    rw [hres, ← hbidx]
    exact vmapIter_nth_data hu bidx bargs j hj rest
  · intro h0
    rw [hres, h0]
    rfl

/-- Witness for C3: signature `(n)->()` on a `(2, 3)` argument. -/
theorem c3_witness :
    ∃ bargs, broadcast_with_core_dims
        ([⟨[2, 3], fun _ => (7 : Int)⟩] : List (NDArray Int)) [[['n']]] [[]] =
        .ok bargs ∧
      getOk (wrapper (fun as => Result.single ⟨[], fun _ => (as.headD default).data [0]⟩)
          [[['n']]] [[]] [⟨[2, 3], fun _ => (7 : Int)⟩] none) =
        vmapIter ((bargs.headD default).shape.length - ([[['n']]].headD []).length)
          (fun as => Result.single ⟨[], fun _ => (as.headD default).data [0]⟩) bargs ∧
      (∀ bidx : List Nat,
        bidx.length = (bargs.headD default).shape.length - ([[['n']]].headD []).length →
        ∀ j, j < 1 → ∀ rest : List Nat,
          ((getOk (wrapper (fun as => Result.single ⟨[], fun _ => (as.headD default).data [0]⟩)
              [[['n']]] [[]] [⟨[2, 3], fun _ => (7 : Int)⟩] none)).nth j).data
              (bidx ++ rest) =
            (((fun as => Result.single ⟨[], fun _ => (as.headD default).data [0]⟩ : Func Int)
                (multiSlice bargs bidx)).nth j).data rest) ∧
      ((bargs.headD default).shape.length - ([[['n']]].headD []).length = 0 →
        getOk (wrapper (fun as => Result.single ⟨[], fun _ => (as.headD default).data [0]⟩)
            [[['n']]] [[]] [⟨[2, 3], fun _ => (7 : Int)⟩] none) =
          (fun as => Result.single ⟨[], fun _ => (as.headD default).data [0]⟩ : Func Int)
            bargs) :=
  c3_batching_nested_loop (fun _ => rfl) rfl

/-- C4 counterexample: the nine-character string `(n)->(n)` followed by a
newline parses successfully — Python's end anchor matches just before one
final newline — although no structure of the claimed grammar renders to
it, because a newline is not a word character, parenthesis, comma or
arrow character. -/
theorem c4_counterexample :
    _parse_gufunc_signature sigNl = some ([[['n']]], [[['n']]]) ∧
    ¬ InGrammar sigNl.data := by
  refine ⟨rfl, ?_⟩
  rintro ⟨ins, outs, hm⟩
  have hmem : '\n' ∈ sigNl.data := by decide
  rcases mem_sig_charset hm '\n' hmem with h | h | h | h | h | h <;>
    exact absurd h (by decide)

/-- C4 (amended): for every string made solely of ASCII characters,
parsing succeeds, returning per side one tuple of names per group in
left-to-right order, exactly on strings matching the grammar after
removing at most one trailing newline; `vectorize` fails with
InvalidSignature exactly on the remaining ASCII strings.  The ASCII
hypothesis scopes the claim to the domain on which `isWordChar` embeds
Python's `\w` exactly: on non-ASCII strings the source additionally
accepts Unicode word characters in names (e.g. the source parses
a signature with the name `é`), which this model does not cover. -/
theorem c4_amended_grammar (s : String) (hascii : asciiOnly s = true) :
    (∀ ins outs, _parse_gufunc_signature s = some (ins, outs) ↔
      SigMatches (stripFinalNewline s.data) ins outs) ∧
    (vectorizeSig s = .error .invalidSignature ↔
      ¬ InGrammar (stripFinalNewline s.data)) := by
  constructor
  · intro ins outs
    exact parseSignatureChars_iff
  · cases hp : _parse_gufunc_signature s with
    | some r =>
      obtain ⟨ins, outs⟩ := r
      have hg : InGrammar (stripFinalNewline s.data) :=
        ⟨ins, outs, parseSignatureChars_sound hp⟩
      unfold vectorizeSig
      rw [hp]
      exact iff_of_false (by simp) (fun hn => hn hg)
    | none =>
      unfold vectorizeSig
      rw [hp]
      refine iff_of_true rfl ?_
      rintro ⟨ins, outs, hm⟩
      have h2 : _parse_gufunc_signature s = some (ins, outs) :=
        parseSignatureChars_complete hm
      rw [hp] at h2
      exact absurd h2 (by simp)

/-- Witness for C4: the amended equivalence instantiated at the ASCII
string `(n)->()`. -/
theorem c4_witness :
    _parse_gufunc_signature "(n)->()" = some ([[['n']]], [[]]) ↔
      SigMatches (stripFinalNewline "(n)->()".data) [[['n']]] [[]] :=
  (c4_amended_grammar "(n)->()" (by decide)).1 [[['n']]] [[]]

/-- C5: when the dimension walk succeeds, the resolver returns exactly the
standard right-aligned array-broadcast result of the non-core prefix
shapes (each aligned dimension equal to the result's or equal to 1 or
absent, the result taking the non-1 value), and fails with BroadcastError
naming the prefix shapes exactly when no such common result exists. -/
theorem c5_resolver_broadcast {shapes : List Shape} {icd : CoreDims} {t : DimTable}
    (h : walkAux (shapes.zip icd) [] = .ok t) :
    (∀ P, _parse_input_dimensions shapes icd = .ok (P, t) ↔
      IsBroadcastResult (batchShapes shapes icd) P) ∧
    (_parse_input_dimensions shapes icd =
        .error (.broadcastError (batchShapes shapes icd)) ↔
      ¬ ∃ P, IsBroadcastResult (batchShapes shapes icd) P) := by
  have key : ∀ P : Shape, _parse_input_dimensions shapes icd = .ok (P, t) ↔
      broadcastShapes (batchShapes shapes icd) = some P := by
    intro P
    unfold _parse_input_dimensions
    rw [h]
    cases hb : broadcastShapes (batchShapes shapes icd) with
    | some b =>
      constructor
      · intro h2
        have h3 : (b, t) = (P, t) := by simpa using h2
        injection h3 with h4 _
        rw [h4]
      · intro h2
        have h3 : b = P := by simpa using h2
        rw [h3]
    | none =>
      constructor
      · intro h2
        exact absurd h2 (by simp)
      · intro h2
        exact absurd h2 (by simp)
  constructor
  · intro P
    rw [key P, broadcastShapes_some_iff]
  · have key2 : _parse_input_dimensions shapes icd =
        .error (.broadcastError (batchShapes shapes icd)) ↔
        broadcastShapes (batchShapes shapes icd) = none := by
      unfold _parse_input_dimensions
      rw [h]
      cases hb : broadcastShapes (batchShapes shapes icd) with
      | some b => exact iff_of_false (by simp) (by simp)
      | none => exact iff_of_true rfl rfl
    rw [key2, broadcastShapes_none_iff]

/-- Witness for C5: prefixes `()` has rank 1 and `(4,1)`, broadcasting to
`(4,2)`, via the resolver on shapes `(2,3)` and `(4,1,3)` against
signature side `(n),(n)`. -/
theorem c5_witness :
    IsBroadcastResult (batchShapes [[2, 3], [4, 1, 3]] [[['n']], [['n']]]) [4, 2] :=
  ((c5_resolver_broadcast (show walkAux (([[2, 3], [4, 1, 3]] : List Shape).zip
      ([[['n']], [['n']]] : CoreDims)) [] = Except.ok [(['n'], 3)] from
      rfl)).1 [4, 2]).mp rfl

/-- C6: the dimension walk visits `(name, size)` pairs in argument order:
on success every name is bound to the size of its first occurrence; a
later occurrence with a different size makes the walk fail with
InconsistentDimension carrying a conflicting name, the clashing size and
the first-fixed size; in particular `(n),(n)->()` on trailing core sizes
3 and 4 raises exactly `InconsistentDimension n 4 3`. -/
theorem c6_dim_walk {shapes : List Shape} {icd : CoreDims}
    (hr : ∀ p ∈ shapes.zip icd, p.2.length ≤ p.1.length) :
    ((∀ t, walkAux (shapes.zip icd) [] = .ok t →
        ∀ n, lookupT t n = lookupT (occsOf shapes icd) n) ∧
     ((∃ t, walkAux (shapes.zip icd) [] = .ok t) ↔
        ∀ p ∈ occsOf shapes icd, lookupT (occsOf shapes icd) p.1 = some p.2) ∧
     (∀ e, walkAux (shapes.zip icd) [] = .error e →
        ∃ n s s0, e = .inconsistentDim n s s0 ∧ (n, s) ∈ occsOf shapes icd ∧
          lookupT (occsOf shapes icd) n = some s0 ∧ s ≠ s0)) ∧
    errOf (wrapper (fun _ => Result.single default) [[['n']], [['n']]] [[]]
        [⟨[3], fun _ => (0 : Int)⟩, ⟨[4], fun _ => 0⟩] none) =
      some (.inconsistentDim ['n'] 4 3) := by
  have heq := walkAux_eq_occFold (shapes.zip icd) [] hr
  have hocc : ((shapes.zip icd).map
      (fun p => p.2.zip (lastN p.2.length p.1))).foldr (· ++ ·) [] =
      occsOf shapes icd := rfl
  rw [hocc] at heq
  refine ⟨⟨?_, ?_, ?_⟩, by decide⟩
  · intro t ht n
    rw [heq] at ht
    rw [occFold_ok_lookup (occsOf shapes icd) [] t ht n, firstSize_nil]
  · rw [heq]
    exact occFold_ok_iff (occsOf shapes icd) []
  · intro e he
    rw [heq] at he
    obtain ⟨n, s, s0, h1, h2, h3, h4⟩ := occFold_error (occsOf shapes icd) [] e he
    exact ⟨n, s, s0, h1, h2, h3, h4⟩

/-- Witness for C6: the concrete `(n),(n)->()` clash extracted at shapes
`(3,)` and `(4,)`. -/
theorem c6_witness :
    errOf (wrapper (fun _ => Result.single default) [[['n']], [['n']]] [[]]
        [⟨[3], fun _ => (0 : Int)⟩, ⟨[4], fun _ => 0⟩] none) =
      some (.inconsistentDim ['n'] 4 3) :=
  (c6_dim_walk (show ∀ p ∈ ([[3], [4]] : List Shape).zip
      ([[['n']], [['n']]] : CoreDims), p.2.length ≤ p.1.length from by decide)).2

/-- C7: the per-argument validation of `_update_dim_sizes` fails with
InsufficientRank exactly when the argument's rank is strictly below its
declared core-dimension count — and then reports that rank and those core
dimensions — while an argument with an empty core-dimension tuple never
triggers any error regardless of its rank. -/
theorem c7_insufficient_rank (t : DimTable) (sh : Shape) (cds : List DimName) :
    ((∃ nd c, _update_dim_sizes t sh cds = .error (.insufficientRank nd c)) ↔
      sh.length < cds.length) ∧
    (sh.length < cds.length →
      _update_dim_sizes t sh cds = .error (.insufficientRank sh.length cds)) ∧
    (cds = [] → _update_dim_sizes t sh cds = .ok t) := by
  cases cds with
  | nil =>
    refine ⟨?_, ?_, fun _ => rfl⟩
    · constructor
      · rintro ⟨nd, c, hc⟩
        simp [_update_dim_sizes] at hc
      · intro hlt
        simp at hlt
    · intro hlt
      simp at hlt
  | cons c0 cds0 =>
    have hun : _update_dim_sizes t sh (c0 :: cds0) =
        if sh.length < (c0 :: cds0).length then
          .error (.insufficientRank sh.length (c0 :: cds0))
        else occFold ((c0 :: cds0).zip (lastN (c0 :: cds0).length sh)) t := by
      simp [_update_dim_sizes]
    by_cases hlt : sh.length < (c0 :: cds0).length
    · refine ⟨iff_of_true ⟨sh.length, c0 :: cds0, ?_⟩ hlt, fun _ => ?_,
        fun he => by simp at he⟩
      · rw [hun, if_pos hlt]
      · rw [hun, if_pos hlt]
    · refine ⟨iff_of_false ?_ hlt, fun hc => absurd hc hlt, fun he => by simp at he⟩
      rintro ⟨nd, c, hc⟩
      rw [hun, if_neg hlt] at hc
      obtain ⟨n, s, s0, he, _, _, _⟩ := occFold_error _ t _ hc
      simp at he

/-- Witness for C7: a rank-1 argument against two declared core
dimensions. -/
theorem c7_witness :
    _update_dim_sizes [] [5] [['a'], ['b']] =
      .error (.insufficientRank 1 [['a'], ['b']]) :=
  (c7_insufficient_rank [] [5] [['a'], ['b']]).2.1 (by decide)

set_option maxHeartbeats 4000000 in
/-- C8: `center` under `(n)->(),(n)` on any rational 3 × 4 matrix: with
axis 1 the outputs have shapes `(3,)` and `(3,4)`, the first equal to the
row means and the second to each row minus its mean; with axis 0 the
shapes are `(4,)` and `(3,4)`, computed down columns — the rebinding moves
the named axis last on the input and moves the last axis back to `axis` on
the output that declares a core dimension. -/
theorem c8_center_axis (f : List Nat → ℚ) :
    (okShapes (wrapper centerF [[['n']]] [[], [['n']]] [mkMat34 f] (some 1)) =
      some [[3], [3, 4]]) ∧
    (∀ i, i < 3 →
      ((getOk (wrapper centerF [[['n']]] [[], [['n']]] [mkMat34 f]
        (some 1))).nth 0).data [i] = rowMeanQ f i) ∧
    (∀ i j, i < 3 → j < 4 →
      ((getOk (wrapper centerF [[['n']]] [[], [['n']]] [mkMat34 f]
        (some 1))).nth 1).data [i, j] = f [i, j] - rowMeanQ f i) ∧
    (okShapes (wrapper centerF [[['n']]] [[], [['n']]] [mkMat34 f] (some 0)) =
      some [[4], [3, 4]]) ∧
    (∀ j, j < 4 →
      ((getOk (wrapper centerF [[['n']]] [[], [['n']]] [mkMat34 f]
        (some 0))).nth 0).data [j] = colMeanQ f j) ∧
    (∀ i j, i < 3 → j < 4 →
      ((getOk (wrapper centerF [[['n']]] [[], [['n']]] [mkMat34 f]
        (some 0))).nth 1).data [i, j] = f [i, j] - colMeanQ f j) := by
  refine ⟨rfl, fun i _ => ?_, fun i j _ _ => ?_, rfl, fun j _ => ?_, fun i j _ _ => ?_⟩
  · show (f [i, 0] + (f [i, 1] + (f [i, 2] + (f [i, 3] + 0)))) / ((4 : ℕ) : ℚ) =
      rowMeanQ f i
    simp [rowMeanQ]
    ring
  · show f [i, j] - (f [i, 0] + (f [i, 1] + (f [i, 2] + (f [i, 3] + 0)))) / ((4 : ℕ) : ℚ) =
      f [i, j] - rowMeanQ f i
    simp [rowMeanQ]
    ring
  · show (f [0, j] + (f [1, j] + (f [2, j] + 0))) / ((3 : ℕ) : ℚ) = colMeanQ f j
    simp [colMeanQ]
    ring
  · show f [i, j] - (f [0, j] + (f [1, j] + (f [2, j] + 0))) / ((3 : ℕ) : ℚ) =
      f [i, j] - colMeanQ f j
    simp [colMeanQ]
    ring

set_option maxHeartbeats 4000000 in
/-- Witness for C8: the row-mean equation at row 1 of the arange matrix. -/
theorem c8_witness :
    ((getOk (wrapper centerF [[['n']]] [[], [['n']]]
        [mkMat34 (fun idx => ((4 * idx.headD 0 + idx.tail.headD 0 : ℕ) : ℚ))]
        (some 1))).nth 0).data [1] =
      rowMeanQ (fun idx => ((4 * idx.headD 0 + idx.tail.headD 0 : ℕ) : ℚ)) 1 :=
  (c8_center_axis (fun idx => ((4 * idx.headD 0 + idx.tail.headD 0 : ℕ) : ℚ))).2.1
    1 (by decide)

/-- C9: output core dimensions impose no per-call constraint: the
broadcast step ignores its `output_core_dims` parameter entirely, an
axis-free wrapped call is independent of the declared output core
dimensions, `()->(n)` is a valid signature, and a call whose output size
is chosen freely by the core function succeeds with no validation of the
declared output names. -/
theorem c9_output_dims_unused :
    (∀ (args : List (NDArray Int)) (icd o1 o2 : CoreDims),
      broadcast_with_core_dims args icd o1 = broadcast_with_core_dims args icd o2) ∧
    (∀ (func : Func Int) (icd o1 o2 : CoreDims) (args : List (NDArray Int)),
      wrapper func icd o1 args none = wrapper func icd o2 args none) ∧
    (_parse_gufunc_signature "()->(n)" = some ([[]], [[['n']]])) ∧
    (okShapes (wrapper (fun _ => Result.single ⟨[5], fun _ => (0 : Int)⟩)
        [[]] [[['n']]] [⟨[], fun _ => 0⟩] none) = some [[5]]) := by
  exact ⟨fun args icd o1 o2 => rfl, fun func icd o1 o2 args => rfl, rfl, rfl⟩

/-- Witness for C9: output-side independence at concrete values. -/
theorem c9_witness :
    broadcast_with_core_dims ([] : List (NDArray Int)) [] [[['x']]] =
      broadcast_with_core_dims ([] : List (NDArray Int)) [] [] :=
  c9_output_dims_unused.1 [] [] [[['x']]] []

/-- C10: a signature string containing at least two occurrences of the
substring `->` never parses: the accepted language contains exactly one
dash character — dimension names are word characters, which exclude the
dash and the greater-than sign. -/
theorem c10_double_arrow_rejected (s : String) (h : 2 ≤ arrowCount s.data) :
    _parse_gufunc_signature s = none := by
  by_contra hc
  obtain ⟨r, hr⟩ := Option.ne_none_iff_exists'.mp hc
  obtain ⟨ins, outs⟩ := r
  have hm : SigMatches (stripFinalNewline s.data) ins outs :=
    parseSignatureChars_sound hr
  have h1 : (stripFinalNewline s.data).count '-' = 1 := sig_count_dash hm
  have h2 : s.data.count '-' = 1 := by
    rw [← count_dash_strip]
    exact h1
  have h3 := arrowCount_le_count s.data
  omega

/-- Witness for C10: a string with two arrows is rejected. -/
theorem c10_witness : _parse_gufunc_signature "(a)->(b)->(c)" = none :=
  c10_double_arrow_rejected "(a)->(b)->(c)" (by decide)

end Gufunc
